import Mathlib

/-!
Verification of the rwanda-geo geospatial feature index.

This file gives a shallow embedding, in Lean 4, of the core of the
repository:

* `src/lib/search-index.ts` — the hierarchical search index
  (`normalize`, `getProp`, `buildSearchIndexMap`);
* `src/components/shared/location-search.tsx` — query parsing, level
  filtering, ranking and truncation of search results;
* `src/hooks/useSpatialIndex.ts` — the adaptive spatial grid index and
  the exact point-in-polygon resolver (`isPointInRing`,
  `isPointInPolygonCoords`, `getVillageAtLatLng`);
* `src/lib/dms.ts` and `src/lib/coords.ts` — coordinate formatting
  (`decimalToDMS`, `latLngToDMS`) and parsing (`parseCoordinates`).

Modelling conventions:

* JavaScript numbers are modelled as exact rationals `ℚ`.  Lean's `ℚ`
  has `q / 0 = 0` where JavaScript produces `NaN`/`Infinity`; the spots
  where this matters are marked with comments, and in each such spot the
  observable result of the modelled function agrees with the source.
* JavaScript strings are modelled as `List Char` (`Str` below).
  `String.prototype.normalize("NFKD")` is modelled as the identity on
  code points (it is the identity on the ASCII strings all concrete
  statements below use); the subsequent combining-mark stripping,
  lower-casing, whitespace collapsing and trimming are modelled exactly.
* A JavaScript `Map` is modelled as an insertion-ordered association
  list with unique keys; `map.get`/`map.set`/push-into-existing-entry
  are modelled by the corresponding association-list operations.
-/

namespace RG

/-- JS strings are modelled as lists of characters. -/
abbrev Str := List Char

/-- Membership of a character in the JS `\s` class (ASCII part):
space, tab, line feed, vertical tab, form feed, carriage return. -/
def isJsWs (c : Char) : Bool :=
  c = ' ' || c = Char.ofNat 9 || c = Char.ofNat 10 || c = Char.ofNat 11 ||
  c = Char.ofNat 12 || c = Char.ofNat 13

/-- `String.prototype.trim()`: drop whitespace from both ends. -/
def trimStr (s : Str) : Str :=
  ((s.dropWhile isJsWs).reverse.dropWhile isJsWs).reverse

/-- Helper for `replace(/\s+/g, " ")`: the Bool records whether we are
inside a whitespace run that has already emitted its single space. -/
def collapseWsAux : Str → Bool → Str
  | [], _ => []
  | c :: cs, inRun =>
    if isJsWs c then
      if inRun then collapseWsAux cs true else ' ' :: collapseWsAux cs true
    else c :: collapseWsAux cs false

/-- `replace(/\s+/g, " ")`: every maximal whitespace run becomes one space. -/
def collapseWs (s : Str) : Str := collapseWsAux s false

/-- A combining diacritical mark, the class `[̀-ͯ]`. -/
def isCombiningMark (c : Char) : Bool := 0x300 ≤ c.toNat && c.toNat ≤ 0x36f

/-- `normalize` from `src/lib/search-index.ts`:
lower-case, NFKD (modelled as the identity on code points), strip
combining marks, collapse whitespace, trim. -/
def normalize (s : Str) : Str :=
  trimStr (collapseWs ((s.map Char.toLower).filter (fun c => !isCombiningMark c)))

/-! ## Data model: features -/

/-- A point-in-polygon coordinate: GeoJSON order, `.1` = longitude (x),
`.2` = latitude (y). -/
abbrev Coord := ℚ × ℚ

/-- A GeoJSON ring: ordered list of (lng, lat) pairs. -/
abbrev Ring := List Coord

/-- A feature geometry: `Polygon` (exterior ring plus holes),
`MultiPolygon`, or any other GeoJSON type (which the containment code
ignores). -/
inductive Geometry where
  | polygon (coordinates : List Ring)
  | multiPolygon (coordinates : List (List Ring))
  | otherGeom
deriving DecidableEq

/-- A GeoJSON feature: a geometry plus the flat attribute map.
Attribute values are strings; a JS `null`/missing attribute is modelled
as an absent key (both produce the `"Unknown"` sentinel in `getProp`). -/
structure Feature where
  geometry : Geometry
  properties : List (Str × Str)
deriving DecidableEq

/-- First value bound to `k` in an association list. -/
def assocFind (m : List (Str × Str)) (k : Str) : Option Str :=
  (m.find? (fun e => decide (e.1 = k))).map (fun e => e.2)

/-- The string `"Unknown"`. -/
def unknownStr : Str := ['U', 'n', 'k', 'n', 'o', 'w', 'n']

/-- `getProp` from `src/lib/search-index.ts`: missing, null or
empty-string attributes are normalized to the sentinel `"Unknown"`. -/
def getProp (p : List (Str × Str)) (key : Str) : Str :=
  match assocFind p key with
  | none => unknownStr
  | some v => if v = [] then unknownStr else v

/-! ## The hierarchical search index (`src/lib/search-index.ts`) -/

/-- `SearchLevel` from `location-search.tsx`. -/
inductive Level where
  | Province | District | Sector | Cell | Village
deriving DecidableEq

/-- The level's literal name, used as the key prefix in `add`. -/
def levelStr : Level → Str
  | .Province => ['P', 'r', 'o', 'v', 'i', 'n', 'c', 'e']
  | .District => ['D', 'i', 's', 't', 'r', 'i', 'c', 't']
  | .Sector => ['S', 'e', 'c', 't', 'o', 'r']
  | .Cell => ['C', 'e', 'l', 'l']
  | .Village => ['V', 'i', 'l', 'l', 'a', 'g', 'e']

/-- `SearchItem` from `location-search.tsx`. -/
structure SearchItem where
  id : Str
  level : Level
  name : Str
  parentsLabel : Str
  searchText : Str
  indices : List ℕ
deriving DecidableEq

/-- The search index map: insertion-ordered association list with
unique keys (the model of the JS `Map<string, SearchItem>`). -/
abbrev IndexMap := List (Str × SearchItem)

/-- The composite key `` `${level}:${normalize(clean)}|${normalize(parentsKey)}` ``. -/
def makeKey (level : Level) (clean : Str) (parentsKey : Str) : Str :=
  levelStr level ++ ':' :: (normalize clean ++ '|' :: normalize parentsKey)

/-- One `add(level, name, idx, parentsKey, parentsLabel)` call from
`buildSearchIndexMap`: skip empty trimmed names; push the index into the
entry with the composite key, creating the entry on first sight. -/
def addEntry (m : IndexMap) (level : Level) (name : Str) (idx : ℕ)
    (parentsKey parentsLabel : Str) : IndexMap :=
  let clean := trimStr name
  if clean = [] then m
  else
    let key := makeKey level clean parentsKey
    if m.any (fun e => decide (e.1 = key)) then
      m.map (fun e =>
        if e.1 = key then (e.1, { e.2 with indices := e.2.indices ++ [idx] }) else e)
    else
      m ++ [(key,
        { id := key
          level := level
          name := clean
          parentsLabel := parentsLabel
          searchText := normalize (clean ++ ' ' :: parentsLabel)
          indices := [idx] })]

/-- The string `" • "` used in breadcrumb labels. -/
def bulletSep : Str := [' ', Char.ofNat 0x2022, ' ']

def nameKey0 : Str := ['N', 'A', 'M', 'E', '_', '0']
def nameKey1 : Str := ['N', 'A', 'M', 'E', '_', '1']
def nameKey2 : Str := ['N', 'A', 'M', 'E', '_', '2']
def nameKey3 : Str := ['N', 'A', 'M', 'E', '_', '3']
def nameKey4 : Str := ['N', 'A', 'M', 'E', '_', '4']
def nameKey5 : Str := ['N', 'A', 'M', 'E', '_', '5']

/-- The body of the `features.forEach((f, idx) => ...)` loop in
`buildSearchIndexMap`: five `add` calls, Province down to Village. -/
def processFeature (m : IndexMap) (idx : ℕ) (f : Feature) : IndexMap :=
  let p := f.properties
  let country := getProp p nameKey0
  let province := getProp p nameKey1
  let district := getProp p nameKey2
  let sector := getProp p nameKey3
  let cell := getProp p nameKey4
  let m1 := addEntry m .Province province idx country country
  let m2 := addEntry m1 .District district idx (province ++ '|' :: country)
    (province ++ bulletSep ++ country)
  let m3 := addEntry m2 .Sector sector idx (province ++ '|' :: district)
    (province ++ bulletSep ++ district)
  let m4 := addEntry m3 .Cell cell idx
    (province ++ '|' :: district ++ '|' :: sector)
    (province ++ bulletSep ++ district ++ bulletSep ++ sector)
  addEntry m4 .Village (getProp p nameKey5) idx
    (province ++ '|' :: district ++ '|' :: sector ++ '|' :: cell)
    (province ++ bulletSep ++ district ++ bulletSep ++ sector ++ bulletSep ++ cell)

/-- `buildSearchIndexMap` from `src/lib/search-index.ts`. -/
def buildSearchIndexMap (features : List Feature) : IndexMap :=
  features.enum.foldl (fun m e => processFeature m e.1 e.2) []

/-! ## Query parsing and ranking (`location-search.tsx`) -/

def kwProvince : Str := ['p', 'r', 'o', 'v', 'i', 'n', 'c', 'e']
def kwDistrict : Str := ['d', 'i', 's', 't', 'r', 'i', 'c', 't']
def kwSector : Str := ['s', 'e', 'c', 't', 'o', 'r']
def kwCell : Str := ['c', 'e', 'l', 'l']
def kwVillage : Str := ['v', 'i', 'l', 'l', 'a', 'g', 'e']

/-- `levelMap[s]`: the recognized level keywords. -/
def levelMapLookup (s : Str) : Option Level :=
  if s = kwProvince then some .Province
  else if s = kwDistrict then some .District
  else if s = kwSector then some .Sector
  else if s = kwCell then some .Cell
  else if s = kwVillage then some .Village
  else none

/-- `allTypePrefixes = Object.keys(levelMap)`, in declaration order. -/
def allTypePrefixes : List Str := [kwProvince, kwDistrict, kwSector, kwCell, kwVillage]

/-- `String.prototype.split(/\s+/)`: fields between maximal whitespace
runs; a leading (resp. trailing) run produces a leading (resp. trailing)
empty field, and splitting the empty string gives one empty field.  The
structural fuel (always sufficient, see `splitWsFields_eq`) keeps the
definition kernel-reducible. -/
def splitWsGo : ℕ → Str → List Str
  | 0, _ => []
  | fuel + 1, l =>
    match l.dropWhile (fun c => !isJsWs c) with
    | [] => [l.takeWhile (fun c => !isJsWs c)]
    | _ :: t => l.takeWhile (fun c => !isJsWs c) :: splitWsGo fuel (t.dropWhile isJsWs)

def splitWsFields (l : Str) : List Str := splitWsGo (l.length + 1) l

/-- The `useMemo` in `LocationSearch` that derives `filterLevel` and
`normalizedSearchQuery` from the (debounced) query string.  Note
`split(/\s+/, 2)` keeps only the first two fields, so only the first
whitespace-separated word after the keyword survives as the text query.
The JS `null` prefix (no `":"`) is modelled as the empty string, which
the code treats identically (both are falsy). -/
def parseQuery (debouncedQuery : Str) : Option Level × Str :=
  let trimmed := trimStr debouncedQuery
  let hasTypePrefix := trimmed.head? = some ':'
  let fields := splitWsFields (trimmed.drop 1)
  let typePrefix := if hasTypePrefix then (fields.getD 0 []).map Char.toLower else []
  let searchQuery := if hasTypePrefix then fields.getD 1 [] else debouncedQuery
  let filterLevel := if typePrefix = [] then none else levelMapLookup typePrefix
  (filterLevel, normalize searchQuery)

/-- The `typePrefixSuggestions` memo: suggestions for an unrecognized or
missing keyword after `":"` (prefix match against the five keywords). -/
def typePrefixSuggestions (query : Str) : List Str :=
  let trimmed := trimStr query
  let hasTypePrefix := trimmed.head? = some ':'
  let typePrefix :=
    if hasTypePrefix then ((splitWsFields (trimmed.drop 1)).getD 0 []).map Char.toLower
    else []
  let isValidPrefix := typePrefix ≠ [] ∧ (levelMapLookup typePrefix).isSome
  if hasTypePrefix ∧ typePrefix ≠ [] ∧ ¬isValidPrefix then
    allTypePrefixes.filter
      (fun pre => (typePrefix.map Char.toLower).isPrefixOf (pre.map Char.toLower))
  else if trimmed = [':'] ∨ (hasTypePrefix ∧ typePrefix = []) then
    allTypePrefixes
  else []

/-- `String.prototype.includes`: `containsSub needle hay` is true iff
`needle` occurs as a contiguous substring of `hay`. -/
def containsSub (needle : Str) : Str → Bool
  | [] => needle.isPrefixOf []
  | c :: cs => needle.isPrefixOf (c :: cs) || containsSub needle cs

/-- The sort order `Province < District < Sector < Cell < Village`. -/
def levelOrderNum : Level → ℕ
  | .Province => 0
  | .District => 1
  | .Sector => 2
  | .Cell => 3
  | .Village => 4

/-- The comparator's sort key: (starts-with rank when a query of length
at least 2 is present, hierarchy level, aggregated index count). -/
def compKey (nq : Str) (a : SearchItem) : ℕ × ℕ × ℕ :=
  (if 2 ≤ nq.length then (if nq.isPrefixOf (normalize a.name) then 0 else 1) else 0,
   levelOrderNum a.level, a.indices.length)

/-- `resultComp nq a b` models `comparator(a, b) <= 0` for the JS sort
comparator in the `results` memo (lexicographic on `compKey`). -/
def resultComp (nq : Str) (a b : SearchItem) : Bool :=
  let ka := compKey nq a
  let kb := compKey nq b
  if ka.1 ≠ kb.1 then decide (ka.1 < kb.1)
  else if ka.2.1 ≠ kb.2.1 then decide (ka.2.1 < kb.2.1)
  else decide (ka.2.2 ≤ kb.2.2)

/-- The `results` memo from `location-search.tsx`: the empty-query guard,
the level filter, the substring filter, the ranked (stable) sort, and
`slice(0, 50)`.  JS `Array.prototype.sort` is a stable sort w.r.t. the
comparator, modelled by `List.mergeSort` with `resultComp`. -/
def resultsFor (searchIndex : List SearchItem) (filterLevel : Option Level)
    (nq : Str) : List SearchItem :=
  if nq.length < 2 ∧ filterLevel = none then []
  else
    let f1 := match filterLevel with
      | some l => searchIndex.filter (fun it : SearchItem => decide (it.level = l))
      | none => searchIndex
    let f2 :=
      if 2 ≤ nq.length then f1.filter (fun it : SearchItem => containsSub nq it.searchText)
      else f1
    (f2.mergeSort (resultComp nq)).take 50

/-- The full search pipeline: entries of the built index
(`Array.from(map.values())`), queried with a parsed query string. -/
def searchModel (features : List Feature) (query : Str) : List SearchItem :=
  let parsed := parseQuery query
  resultsFor ((buildSearchIndexMap features).map (fun e => e.2)) parsed.1 parsed.2

/-! ## The spatial index (`src/hooks/useSpatialIndex.ts`) -/

/-- `isPointInRing` — ray casting over the ring's edges, with
`j = i − 1` wrapping (`for (let i = 0, j = ring.length - 1; i < ring.length; j = i++)`).
`point.1` is the longitude (x), `point.2` the latitude (y).  Note the
division is only reached when `yi > point.2` and `yj > point.2` differ,
which forces `yj ≠ yi`. -/
def isPointInRing (point : Coord) (ring : Ring) : Bool :=
  (List.range ring.length).foldl
    (fun inside i =>
      let j := if i = 0 then ring.length - 1 else i - 1
      let xi := (ring.getD i (0, 0)).1
      let yi := (ring.getD i (0, 0)).2
      let xj := (ring.getD j (0, 0)).1
      let yj := (ring.getD j (0, 0)).2
      let intersect :=
        (decide (yi > point.2) != decide (yj > point.2)) &&
        decide (point.1 < (xj - xi) * (point.2 - yi) / (yj - yi) + xi)
      if intersect then !inside else inside)
    false

/-- `isPointInPolygonCoords` — exterior ring plus holes; an empty
coordinates array contains nothing. -/
def isPointInPolygonCoords (point : Coord) (coordinates : List Ring) : Bool :=
  match coordinates with
  | [] => false
  | exteriorRing :: holes =>
    isPointInRing point exteriorRing && holes.all (fun h => !isPointInRing point h)

/-- The exact containment test performed for one candidate feature in
`getVillageAtLatLng` (`Polygon` / `MultiPolygon` / other geometry). -/
def featureContains (point : Coord) (f : Feature) : Bool :=
  match f.geometry with
  | .polygon coords => isPointInPolygonCoords point coords
  | .multiPolygon polys => polys.any (fun poly => isPointInPolygonCoords point poly)
  | .otherGeom => false

/-- All coordinates of a geometry, across every ring of every polygon
(what Leaflet's `getBounds` folds over). -/
def geomCoords : Geometry → List Coord
  | .polygon coords => coords.flatten
  | .multiPolygon polys => (polys.map (fun rs => rs.flatten)).flatten
  | .otherGeom => []

/-- A Leaflet `LatLngBounds`: south/north are latitudes, west/east
longitudes. -/
structure BBox where
  south : ℚ
  north : ℚ
  west : ℚ
  east : ℚ
deriving DecidableEq

/-- `L.geoJSON(feature).getBounds()`: the min/max over all coordinates.
A geometry with no coordinates has no valid bounds (Leaflet produces an
empty `LatLngBounds`; reading its corners throws), modelled as `none`. -/
def bboxOfCoords : List Coord → Option BBox
  | [] => none
  | c :: cs =>
    some (cs.foldl
      (fun b d => ⟨min b.south d.2, max b.north d.2, min b.west d.1, max b.east d.1⟩)
      ⟨c.2, c.2, c.1, c.1⟩)

/-- The cached per-feature bounds (`featureBounds` in the hook). -/
def featureBBox (f : Feature) : Option BBox :=
  bboxOfCoords (geomCoords f.geometry)

/-- `LatLngBounds.contains(point)` (closed on all four sides);
`p.1` = lng, `p.2` = lat. -/
def bboxContains (b : BBox) (p : Coord) : Bool :=
  decide (b.west ≤ p.1) && decide (p.1 ≤ b.east) &&
  decide (b.south ≤ p.2) && decide (p.2 ≤ b.north)

/-- Extend one bounds by another (the `Math.min`/`Math.max` folds that
compute the overall bounds). -/
def bboxMerge (a b : BBox) : BBox :=
  ⟨min a.south b.south, max a.north b.north, min a.west b.west, max a.east b.east⟩

/-- The overall bounds of all features.  In JS the fold starts from
`±Infinity` and a feature with no coordinates would throw when its empty
bounds are read; features without bounds are skipped here and an
all-empty input yields `none` (in JS the `±Infinity` bounds make the
query's quick-reject always fire, with the same observable `null`). -/
def overallBBox (features : List Feature) : Option BBox :=
  features.foldl
    (fun acc f =>
      match featureBBox f with
      | none => acc
      | some b => match acc with
        | none => some b
        | some a => some (bboxMerge a b))
    none

/-- Least `k` with `k * k ≥ m`, i.e. `⌈√m⌉` over the naturals. -/
def ceilSqrtNat (m : ℕ) : ℕ :=
  let s := Nat.sqrt m
  if m ≤ s * s then s else s + 1

/-- `gridSize = Math.max(30, Math.min(80, Math.ceil(Math.sqrt(n / 4))))`.
In exact arithmetic `⌈√(n/4)⌉` is the least `k` with `4k² ≥ n`, which
equals `ceilSqrtNat ⌈n/4⌉ = ceilSqrtNat ((n + 3) / 4)`. -/
def gridSizeOf (n : ℕ) : ℕ :=
  max 30 (min 80 (ceilSqrtNat ((n + 3) / 4)))

/-- The list of integers `a, a+1, ..., b` (empty when `b < a`), the
index range of a `for (let v = a; v <= b; v++)` loop. -/
def intRange (a b : ℤ) : List ℤ :=
  (List.range (b + 1 - a).toNat).map (fun k : ℕ => a + (k : ℤ))

/-- The grid keys a feature with bounds `b` is registered under:
rows `max(0, floor((south-minLat)/cellLat)) .. min(gridSize-1, ceil((north-minLat)/cellLat))`,
columns analogous, key `row * gridSize + col`.  (When a cell size is `0`
Lean's `q / 0 = 0` registers the feature in row/column `0`; JS computes
`NaN` bounds and registers it nowhere.  Containment of any point is
impossible in that degenerate case — all coordinates share one latitude
or longitude — so `getVillageAtLatLng`'s result is unaffected.) -/
def cellKeysOf (gridSize : ℕ) (o : BBox) (cellLat cellLng : ℚ) (b : BBox) : List ℤ :=
  let south := Int.floor ((b.south - o.south) / cellLat)
  let north := Int.ceil ((b.north - o.south) / cellLat)
  let west := Int.floor ((b.west - o.west) / cellLng)
  let east := Int.ceil ((b.east - o.west) / cellLng)
  (intRange (max 0 south) (min ((gridSize : ℤ) - 1) north)).flatMap
    (fun row => (intRange (max 0 west) (min ((gridSize : ℤ) - 1) east)).map
      (fun col => row * (gridSize : ℤ) + col))

/-- `grid.get(k) || []`: the candidate indices stored under key `k`.
The JS `Map<number, number[]>` built by pushing each feature's index (in
feature order) into every key of `cellKeysOf` is modelled by its lookup
function; pushes in feature order make each stored list increasing. -/
def gridLookup (features : List Feature) (gridSize : ℕ) (o : BBox)
    (cellLat cellLng : ℚ) (k : ℤ) : List ℕ :=
  features.enum.filterMap
    (fun e => match featureBBox e.2 with
      | none => none
      | some b => if k ∈ cellKeysOf gridSize o cellLat cellLng b then some e.1 else none)

/-- `getVillageAtLatLng` from `src/hooks/useSpatialIndex.ts`.  The
input is a Leaflet `LatLng` (`latlng.1` = lat, `latlng.2` = lng); the
GeoJSON point used in the polygon tests is `(lng, lat)`. -/
def getVillageAtLatLng (features : List Feature) (latlng : ℚ × ℚ) : Option Feature :=
  let pointCoords : Coord := (latlng.2, latlng.1)
  match overallBBox features with
  | none => none
  | some o =>
    if latlng.1 < o.south ∨ latlng.1 > o.north ∨ latlng.2 < o.west ∨ latlng.2 > o.east
    then none
    else
      let gridSize := gridSizeOf features.length
      let cellLat := (o.north - o.south) / (gridSize : ℚ)
      let cellLng := (o.east - o.west) / (gridSize : ℚ)
      let row := Int.floor ((latlng.1 - o.south) / cellLat)
      let col := Int.floor ((latlng.2 - o.west) / cellLng)
      let validRow := max 0 (min ((gridSize : ℤ) - 1) row)
      let validCol := max 0 (min ((gridSize : ℤ) - 1) col)
      let gridKey := validRow * (gridSize : ℤ) + validCol
      let candidateIndices := gridLookup features gridSize o cellLat cellLng gridKey
      (candidateIndices.find?
        (fun i => match features.get? i with
          | none => false
          | some f => match featureBBox f with
            | none => false
            | some b => bboxContains b pointCoords && featureContains pointCoords f))
        |>.bind features.get?

/-! ## DMS formatting (`src/lib/dms.ts`) -/

/-- The decimal digit character for `n < 10`. -/
def digitChar (n : ℕ) : Char := Char.ofNat (48 + n)

/-- Decimal digits of a natural number (the JS number-to-string
conversion for whole numbers), via a structural fuel so that concrete
values kernel-reduce; `natDigitsAux` never exhausts fuel when
`n < fuel`. -/
def natDigitsAux : ℕ → ℕ → Str
  | 0, _ => []
  | fuel + 1, n =>
    if n < 10 then [digitChar n] else natDigitsAux fuel (n / 10) ++ [digitChar (n % 10)]

/-- `` `${n}` `` for a natural number `n`. -/
def natDigits (n : ℕ) : Str := natDigitsAux (n + 1) n

/-- `minutes.toString().padStart(2, "0")`. -/
def pad2 (n : ℕ) : Str := if n < 10 then '0' :: natDigits n else natDigits n

/-- `seconds.toFixed(1)` for a nonnegative rational: round to the
nearest tenth, ties away from zero (the ECMAScript `toFixed` rule,
taking the exact rational in place of the binary double). -/
def toFixed1 (q : ℚ) : Str :=
  let m := (Int.floor (q * 10 + 1 / 2)).toNat
  natDigits (m / 10) ++ '.' :: [digitChar (m % 10)]

/-- The degree sign `°`. -/
def degSign : Char := Char.ofNat 176
/-- The minutes sign, an apostrophe. -/
def minuteSign : Char := Char.ofNat 39
/-- The seconds sign, a double quote. -/
def secondSign : Char := Char.ofNat 34

/-- `decimalToDMS` from `src/lib/dms.ts`. -/
def decimalToDMS (decimalDegrees : ℚ) (isLatitude : Bool) : Str :=
  let abs := |decimalDegrees|
  let degrees := (Int.floor abs).toNat
  let minutesFloat := (abs - (degrees : ℚ)) * 60
  let minutes := (Int.floor minutesFloat).toNat
  let seconds := (minutesFloat - (minutes : ℚ)) * 60
  let direction :=
    if isLatitude then (if 0 ≤ decimalDegrees then 'N' else 'S')
    else (if 0 ≤ decimalDegrees then 'E' else 'W')
  natDigits degrees ++ degSign :: pad2 minutes ++ minuteSign ::
    toFixed1 seconds ++ secondSign :: [direction]

/-- `latLngToDMS` from `src/lib/dms.ts`. -/
def latLngToDMS (lat lng : ℚ) : Str :=
  decimalToDMS lat true ++ ' ' :: decimalToDMS lng false

/-! ## Coordinate parsing (`src/lib/coords.ts`)

The three regular expressions of `parseCoordinates` are embedded as
deterministic maximal-munch scanners.  In each of the patterns every
greedy repetition is over a character class disjoint from the class of
the token that follows it (digits vs. separator signs, separator runs
vs. digits or direction letters), so the deterministic scanner accepts
at a given start position exactly when the backtracking regex engine
matches there, and the unanchored patterns are applied at each start
position from the left, as `String.prototype.match` does. -/

def digitVal (c : Char) : ℕ := c.toNat - 48

/-- Greedy digit run: accumulated value, number of digits, rest. -/
def scanDigitsGo : Str → ℕ → ℕ → ℕ × ℕ × Str
  | [], acc, cnt => (acc, cnt, [])
  | c :: cs, acc, cnt =>
    if c.isDigit then scanDigitsGo cs (acc * 10 + digitVal c) (cnt + 1)
    else (acc, cnt, c :: cs)

/-- `\d+`: at least one digit. -/
def scanDigits (l : Str) : Option (ℕ × ℕ × Str) :=
  match l with
  | c :: _ => if c.isDigit then some (scanDigitsGo l 0 0) else none
  | [] => none

/-- `(-?\d+)` with its `parseFloat` value. -/
def scanInt (l : Str) : Option (ℤ × Str) :=
  match l with
  | '-' :: rest => (scanDigits rest).map (fun r => (-(r.1 : ℤ), r.2.2))
  | _ => (scanDigits l).map (fun r => ((r.1 : ℤ), r.2.2))

/-- `(\d+\.?\d*)` with its `parseFloat` value. -/
def scanDecNum (l : Str) : Option (ℚ × Str) :=
  match scanDigits l with
  | none => none
  | some (ip, _, rest) =>
    match rest with
    | c :: rest2 =>
      if c = '.' then
        let fr := scanDigitsGo rest2 0 0
        some ((ip : ℚ) + (fr.1 : ℚ) / (10 : ℚ) ^ fr.2.1, fr.2.2)
      else some ((ip : ℚ), rest)
    | [] => some ((ip : ℚ), [])

/-- `(-?\d+\.?\d*)` with its `parseFloat` value. -/
def scanSignedDecNum (l : Str) : Option (ℚ × Str) :=
  match l with
  | '-' :: rest => (scanDecNum rest).map (fun r => (-r.1, r.2))
  | _ => scanDecNum l

/-- A greedy one-or-more run of characters satisfying `p`. -/
def scanRun1 (p : Char → Bool) (l : Str) : Option Str :=
  match l with
  | c :: cs => if p c then some (cs.dropWhile p) else none
  | [] => none

/-- The class `[°\s]`. -/
def isDegSep (c : Char) : Bool := c = degSign || isJsWs c
/-- The class `['\s]`. -/
def isMinSep (c : Char) : Bool := c = minuteSign || isJsWs c
/-- The class `[\"\s]`. -/
def isSecSep (c : Char) : Bool := c = secondSign || isJsWs c
/-- The class `[NSEW]` under the `/i` flag. -/
def isDirChar (c : Char) : Bool :=
  c = 'N' || c = 'S' || c = 'E' || c = 'W' ||
  c = 'n' || c = 's' || c = 'e' || c = 'w'

/-- One coordinate half of the DMS patterns:
`(-?\d+)[°\s]+(\d+)['\s]+(\d+\.?\d*)` followed by `[\"\s]*([NSEW])`
(`quoted = true`, the pattern with quotes) or directly by `([NSEW])`
(`quoted = false`, the pattern without quotes). -/
def scanHalf (quoted : Bool) (l : Str) : Option (ℤ × ℕ × ℚ × Char × Str) :=
  match scanInt l with
  | none => none
  | some (deg, r1) =>
    match scanRun1 isDegSep r1 with
    | none => none
    | some r2 =>
      match scanDigits r2 with
      | none => none
      | some (minutes, _, r3) =>
        match scanRun1 isMinSep r3 with
        | none => none
        | some r4 =>
          match scanDecNum r4 with
          | none => none
          | some (sec, r5) =>
            let r6 := if quoted then r5.dropWhile isSecSep else r5
            match r6 with
            | c :: r7 => if isDirChar c then some (deg, minutes, sec, c, r7) else none
            | [] => none

/-- The captured groups of a DMS match (already `parseFloat`ed). -/
structure DMSRaw where
  latDeg : ℤ
  latMin : ℕ
  latSec : ℚ
  latDir : Char
  lngDeg : ℤ
  lngMin : ℕ
  lngSec : ℚ
  lngDir : Char

/-- A full DMS pattern match starting at the current position:
half, `\s+`, half (trailing characters are unconstrained — the DMS
patterns are unanchored). -/
def dmsScanAt (quoted : Bool) (l : Str) : Option DMSRaw :=
  match scanHalf quoted l with
  | none => none
  | some (latDeg, latMin, latSec, latDir, r1) =>
    match scanRun1 isJsWs r1 with
    | none => none
    | some r2 =>
      match scanHalf quoted r2 with
      | none => none
      | some (lngDeg, lngMin, lngSec, lngDir, _) =>
        some ⟨latDeg, latMin, latSec, latDir, lngDeg, lngMin, lngSec, lngDir⟩

/-- `trimmed.match(pattern)`: try the pattern at every start position
from the left. -/
def dmsSearch (quoted : Bool) : Str → Option DMSRaw
  | [] => none
  | c :: t =>
    match dmsScanAt quoted (c :: t) with
    | some g => some g
    | none => dmsSearch quoted t

/-- Degrees-minutes-seconds to decimal degrees, the sign flips for
`S`/`W`, and the latitude/longitude range check — the body of the two
DMS branches of `parseCoordinates` (the `isNaN` guards always pass for
numbers produced by the scanners). -/
def dmsToCoords (g : DMSRaw) : Option (ℚ × ℚ) :=
  let lat0 : ℚ := (g.latDeg : ℚ) + (g.latMin : ℚ) / 60 + g.latSec / 3600
  let lng0 : ℚ := (g.lngDeg : ℚ) + (g.lngMin : ℚ) / 60 + g.lngSec / 3600
  let lat := if g.latDir.toUpper = 'S' then -lat0 else lat0
  let lng := if g.lngDir.toUpper = 'W' then -lng0 else lng0
  if -90 ≤ lat ∧ lat ≤ 90 ∧ -180 ≤ lng ∧ lng ≤ 180 then some (lat, lng) else none

/-- The anchored decimal pattern `^(-?\d+\.?\d*)\s*[,;]\s*(-?\d+\.?\d*)$`. -/
def decScan (l : Str) : Option (ℚ × ℚ) :=
  match scanSignedDecNum l with
  | none => none
  | some (a, r1) =>
    match r1.dropWhile isJsWs with
    | c :: r2 =>
      if c = ',' ∨ c = ';' then
        match scanSignedDecNum (r2.dropWhile isJsWs) with
        | some (b, []) => some (a, b)
        | _ => none
      else none
    | [] => none

/-- `parseCoordinates` from `src/lib/coords.ts`: decimal pair first,
then the quoted DMS pattern, then the quote-free DMS pattern; a branch
whose range check fails falls through to the next branch. -/
def parseCoordinates (input : Str) : Option (ℚ × ℚ) :=
  let trimmed := trimStr input
  if trimmed = [] then none
  else
    let step1 : Option (ℚ × ℚ) :=
      match decScan trimmed with
      | some (lat, lng) =>
        if -90 ≤ lat ∧ lat ≤ 90 ∧ -180 ≤ lng ∧ lng ≤ 180 then some (lat, lng)
        else none
      | none => none
    match step1 with
    | some r => some r
    | none =>
      match (dmsSearch true trimmed).bind dmsToCoords with
      | some r => some r
      | none => (dmsSearch false trimmed).bind dmsToCoords

/-- Indices `i` (offset by `n`) of list elements satisfying `P i x`, in
order — the shape shared by the grid's per-cell candidate lists and the
search entries' aggregated index lists (both are built by pushing
feature indices in `forEach` order). -/
def idxFilterFrom {α : Type} (P : ℕ → α → Bool) (n : ℕ) (l : List α) : List ℕ :=
  (List.enumFrom n l).filterMap (fun e => if P e.1 e.2 then some e.1 else none)

def idxFilter {α : Type} (P : ℕ → α → Bool) (l : List α) : List ℕ :=
  idxFilterFrom P 0 l

theorem idxFilterFrom_nil {α : Type} (P : ℕ → α → Bool) (n : ℕ) :
    idxFilterFrom P n [] = [] := rfl

theorem idxFilterFrom_cons {α : Type} (P : ℕ → α → Bool) (n : ℕ) (x : α) (xs : List α) :
    idxFilterFrom P n (x :: xs) =
      (if P n x then [n] else []) ++ idxFilterFrom P (n + 1) xs := by
  simp only [idxFilterFrom, List.enumFrom_cons, List.filterMap_cons]
  split_ifs with h <;> simp [h]

theorem mem_idxFilterFrom {α : Type} (P : ℕ → α → Bool) (j n : ℕ) (l : List α) :
    j ∈ idxFilterFrom P n l ↔
      n ≤ j ∧ ∃ x, l.get? (j - n) = some x ∧ P j x = true := by
  induction l generalizing n with
  | nil => simp [idxFilterFrom_nil]
  | cons x xs ih =>
    rw [idxFilterFrom_cons]
    simp only [List.mem_append, ih]
    constructor
    · rintro (hj | ⟨hn, y, hy, hP⟩)
      · by_cases h : P n x
        · simp only [h, if_pos, List.mem_singleton] at hj
          subst hj
          exact ⟨le_refl _, x, by simp, h⟩
        · simp [h] at hj
      · refine ⟨by omega, y, ?_, hP⟩
        have : j - n = (j - (n + 1)) + 1 := by omega
        rw [this]
        simpa using hy
    · rintro ⟨hn, y, hy, hP⟩
      rcases Nat.eq_or_lt_of_le hn with he | hlt
      · subst he
        simp only [Nat.sub_self, List.get?_cons_zero, Option.some.injEq] at hy
        subst hy
        left
        simp [hP]
      · right
        refine ⟨by omega, y, ?_, hP⟩
        have : j - n = (j - (n + 1)) + 1 := by omega
        rw [this] at hy
        simpa using hy

theorem pairwise_idxFilterFrom {α : Type} (P : ℕ → α → Bool) (n : ℕ) (l : List α) :
    (idxFilterFrom P n l).Pairwise (· < ·) := by
  induction l generalizing n with
  | nil => simp [idxFilterFrom_nil]
  | cons x xs ih =>
    rw [idxFilterFrom_cons]
    have hmem : ∀ j ∈ idxFilterFrom P (n + 1) xs, n < j := by
      intro j hj
      have := (mem_idxFilterFrom P j (n + 1) xs).mp hj
      omega
    by_cases h : P n x
    · simp only [h, if_pos, List.singleton_append, List.pairwise_cons]
      exact ⟨hmem, ih (n + 1)⟩
    · simp only [h, if_neg, Bool.false_eq_true, not_false_iff, List.nil_append]
      exact ih (n + 1)

theorem idxFilterFrom_append {α : Type} (P : ℕ → α → Bool) (n : ℕ) (l1 l2 : List α) :
    idxFilterFrom P n (l1 ++ l2) =
      idxFilterFrom P n l1 ++ idxFilterFrom P (n + l1.length) l2 := by
  induction l1 generalizing n with
  | nil => simp [idxFilterFrom_nil]
  | cons x xs ih =>
    have harith : n + 1 + xs.length = n + (xs.length + 1) := by omega
    simp only [List.cons_append, idxFilterFrom_cons, ih (n + 1), List.length_cons,
      List.append_assoc, harith]

theorem nodup_idxFilterFrom {α : Type} (P : ℕ → α → Bool) (n : ℕ) (l : List α) :
    (idxFilterFrom P n l).Nodup :=
  (pairwise_idxFilterFrom P n l).imp (fun h => Nat.ne_of_lt h)

theorem count_idxFilterFrom {α : Type} (P : ℕ → α → Bool) (j n : ℕ) (l : List α) :
    (idxFilterFrom P n l).count j =
      if n ≤ j ∧ ∃ x, l.get? (j - n) = some x ∧ P j x = true then 1 else 0 := by
  split_ifs with h
  · exact List.count_eq_one_of_mem (nodup_idxFilterFrom P n l)
      ((mem_idxFilterFrom P j n l).mpr h)
  · exact List.count_eq_zero_of_not_mem (fun hm => h ((mem_idxFilterFrom P j n l).mp hm))

/-- `map.get(k)` for the association-list model. -/
def mapGet (m : IndexMap) (k : Str) : Option SearchItem :=
  (m.find? (fun e => decide (e.1 = k))).map (fun e => e.2)

/-- The attribute key holding a level's name (`NAME_1` … `NAME_5`). -/
def levelNameKeyStr : Level → Str
  | .Province => nameKey1
  | .District => nameKey2
  | .Sector => nameKey3
  | .Cell => nameKey4
  | .Village => nameKey5

/-- The `name` argument of the `add` call at a given level. -/
def levelName (f : Feature) (L : Level) : Str :=
  getProp f.properties (levelNameKeyStr L)

/-- The `parentsKey` argument of the `add` call at a given level. -/
def levelParentsKey (f : Feature) : Level → Str := fun L =>
  let country := getProp f.properties nameKey0
  let province := getProp f.properties nameKey1
  let district := getProp f.properties nameKey2
  let sector := getProp f.properties nameKey3
  let cell := getProp f.properties nameKey4
  match L with
  | .Province => country
  | .District => province ++ '|' :: country
  | .Sector => province ++ '|' :: district
  | .Cell => province ++ '|' :: district ++ '|' :: sector
  | .Village => province ++ '|' :: district ++ '|' :: sector ++ '|' :: cell

/-- The `parentsLabel` argument of the `add` call at a given level. -/
def levelParentsLabel (f : Feature) : Level → Str := fun L =>
  let country := getProp f.properties nameKey0
  let province := getProp f.properties nameKey1
  let district := getProp f.properties nameKey2
  let sector := getProp f.properties nameKey3
  let cell := getProp f.properties nameKey4
  match L with
  | .Province => country
  | .District => province ++ bulletSep ++ country
  | .Sector => province ++ bulletSep ++ district
  | .Cell => province ++ bulletSep ++ district ++ bulletSep ++ sector
  | .Village =>
    province ++ bulletSep ++ district ++ bulletSep ++ sector ++ bulletSep ++ cell

/-- The composite key a feature registers under at a level, `none` when
the level is skipped (trimmed name empty). -/
def regKey (f : Feature) (L : Level) : Option Str :=
  if trimStr (levelName f L) = [] then none
  else some (makeKey L (trimStr (levelName f L)) (levelParentsKey f L))

/-- The five levels, root to leaf. -/
def levelList : List Level := [.Province, .District, .Sector, .Cell, .Village]

/-- The indices a given composite key aggregates: every feature (in
order) that registers that key at some level. -/
def entryIndices (features : List Feature) (k : Str) : List ℕ :=
  idxFilter (fun _ f => levelList.any (fun L => decide (regKey f L = some k))) features

theorem processFeature_eq_folds (m : IndexMap) (idx : ℕ) (f : Feature) :
    processFeature m idx f =
      levelList.foldl
        (fun acc L =>
          addEntry acc L (levelName f L) idx (levelParentsKey f L) (levelParentsLabel f L))
        m := rfl

theorem makeKey_level_inj (L1 L2 : Level) (n1 p1 n2 p2 : Str)
    (h : makeKey L1 n1 p1 = makeKey L2 n2 p2) : L1 = L2 := by
  cases L1 <;> cases L2 <;> first
    | rfl
    | (exfalso; simp [makeKey, levelStr, List.cons_append] at h)

theorem find?_map_fstPreserving (m : IndexMap) (upd : Str × SearchItem → Str × SearchItem)
    (hf : ∀ e, (upd e).1 = e.1) (k : Str) :
    (m.map upd).find? (fun e => decide (e.1 = k)) =
      (m.find? (fun e => decide (e.1 = k))).map upd := by
  induction m with
  | nil => rfl
  | cons e es ih =>
    simp only [List.map_cons, List.find?_cons, hf e]
    cases hd : decide (e.1 = k) <;> simp [hd, ih]

theorem mapGet_isSome_iff_any (m : IndexMap) (k : Str) :
    (mapGet m k).isSome = m.any (fun e => decide (e.1 = k)) := by
  induction m with
  | nil => rfl
  | cons e es ih =>
    simp only [mapGet, List.find?_cons, List.any_cons] at ih ⊢
    by_cases h : e.1 = k <;> simp [h, ih]

theorem addEntry_get_other (m : IndexMap) (level : Level) (name : Str) (idx : ℕ)
    (pk pl : Str) (k : Str)
    (h : trimStr name = [] ∨ k ≠ makeKey level (trimStr name) pk) :
    mapGet (addEntry m level name idx pk pl) k = mapGet m k := by
  unfold addEntry
  rcases h with h | h
  · simp [h]
  · by_cases hclean : trimStr name = []
    · simp [hclean]
    · rw [if_neg hclean]
      by_cases hany : m.any (fun e => decide (e.1 = makeKey level (trimStr name) pk)) = true
      · rw [if_pos hany]
        unfold mapGet
        rw [find?_map_fstPreserving m _
          (fun e => by by_cases he : e.1 = makeKey level (trimStr name) pk <;> simp [he]) k]
        cases hfind : m.find? (fun e => decide (e.1 = k)) with
        | none => rfl
        | some e =>
          have he : e.1 = k := by simpa using List.find?_some hfind
          simp [he, h]
      · rw [if_neg hany]
        unfold mapGet
        rw [List.find?_append]
        cases hfind : m.find? (fun e => decide (e.1 = k)) with
        | none =>
          have hne : ¬ (makeKey level (trimStr name) pk = k) := fun hh => h hh.symm
          simp [hne]
        | some e => simp

theorem addEntry_get_self (m : IndexMap) (level : Level) (name : Str) (idx : ℕ)
    (pk pl : Str) (h : ¬ trimStr name = []) :
    mapGet (addEntry m level name idx pk pl) (makeKey level (trimStr name) pk) =
      some (match mapGet m (makeKey level (trimStr name) pk) with
        | some it => { it with indices := it.indices ++ [idx] }
        | none =>
          { id := makeKey level (trimStr name) pk
            level := level
            name := trimStr name
            parentsLabel := pl
            searchText := normalize (trimStr name ++ ' ' :: pl)
            indices := [idx] }) := by
  unfold addEntry
  rw [if_neg h]
  by_cases hany : m.any (fun e => decide (e.1 = makeKey level (trimStr name) pk)) = true
  · rw [if_pos hany]
    have hsome : (mapGet m (makeKey level (trimStr name) pk)).isSome = true := by
      rw [mapGet_isSome_iff_any]; exact hany
    unfold mapGet
    rw [find?_map_fstPreserving m _
      (fun e => by by_cases he : e.1 = makeKey level (trimStr name) pk <;> simp [he]) _]
    cases hfind : m.find? (fun e => decide (e.1 = makeKey level (trimStr name) pk)) with
    | none =>
      exfalso
      rw [mapGet, hfind] at hsome
      simp at hsome
    | some e =>
      have he : e.1 = makeKey level (trimStr name) pk := by simpa using List.find?_some hfind
      simp [he]
  · rw [if_neg hany]
    have hnone : m.find? (fun e => decide (e.1 = makeKey level (trimStr name) pk)) = none := by
      have h2 : (mapGet m (makeKey level (trimStr name) pk)).isSome = false := by
        rw [mapGet_isSome_iff_any]
        cases hb : m.any (fun e => decide (e.1 = makeKey level (trimStr name) pk))
        · rfl
        · exact absurd hb hany
      rw [mapGet] at h2
      cases hf2 : m.find? (fun e => decide (e.1 = makeKey level (trimStr name) pk))
      · rfl
      · rw [hf2] at h2; simp at h2
    unfold mapGet
    rw [List.find?_append, hnone]
    simp [List.find?_cons]

theorem regKey_ne_cases (f : Feature) (L : Level) (k : Str) (h : regKey f L ≠ some k) :
    trimStr (levelName f L) = [] ∨
      k ≠ makeKey L (trimStr (levelName f L)) (levelParentsKey f L) := by
  unfold regKey at h
  by_cases ht : trimStr (levelName f L) = []
  · exact Or.inl ht
  · right
    rw [if_neg ht] at h
    exact fun he => h (by rw [he])

theorem regKey_eq_elim (f : Feature) (L : Level) (k : Str) (h : regKey f L = some k) :
    ¬ trimStr (levelName f L) = [] ∧
      k = makeKey L (trimStr (levelName f L)) (levelParentsKey f L) := by
  unfold regKey at h
  by_cases ht : trimStr (levelName f L) = []
  · rw [if_pos ht] at h; exact absurd h (by simp)
  · rw [if_neg ht] at h
    exact ⟨ht, by simpa using h.symm⟩

theorem regKey_level_inj (f g : Feature) (L M : Level) (k : Str)
    (hf : regKey f L = some k) (hg : regKey g M = some k) : L = M := by
  obtain ⟨-, h1⟩ := regKey_eq_elim f L k hf
  obtain ⟨-, h2⟩ := regKey_eq_elim g M k hg
  exact makeKey_level_inj L M _ _ _ _ (h1 ▸ h2)

theorem processFeature_get_other (m : IndexMap) (idx : ℕ) (f : Feature) (k : Str)
    (h : ∀ L, regKey f L ≠ some k) :
    mapGet (processFeature m idx f) k = mapGet m k := by
  rw [processFeature_eq_folds]
  simp only [levelList, List.foldl_cons, List.foldl_nil]
  rw [addEntry_get_other _ _ _ _ _ _ _ (regKey_ne_cases f .Village k (h .Village)),
    addEntry_get_other _ _ _ _ _ _ _ (regKey_ne_cases f .Cell k (h .Cell)),
    addEntry_get_other _ _ _ _ _ _ _ (regKey_ne_cases f .Sector k (h .Sector)),
    addEntry_get_other _ _ _ _ _ _ _ (regKey_ne_cases f .District k (h .District)),
    addEntry_get_other _ _ _ _ _ _ _ (regKey_ne_cases f .Province k (h .Province))]

theorem processFeature_get_reg (m : IndexMap) (idx : ℕ) (f : Feature) (L : Level) (k : Str)
    (h : regKey f L = some k) :
    mapGet (processFeature m idx f) k =
      some (match mapGet m k with
        | some it => { it with indices := it.indices ++ [idx] }
        | none =>
          { id := k
            level := L
            name := trimStr (levelName f L)
            parentsLabel := levelParentsLabel f L
            searchText := normalize (trimStr (levelName f L) ++ ' ' :: levelParentsLabel f L)
            indices := [idx] }) := by
  obtain ⟨ht, hk⟩ := regKey_eq_elim f L k h
  have hne : ∀ L', L' ≠ L →
      (trimStr (levelName f L') = [] ∨
        k ≠ makeKey L' (trimStr (levelName f L')) (levelParentsKey f L')) := by
    intro L' hL'
    by_cases ht' : trimStr (levelName f L') = []
    · exact Or.inl ht'
    · right
      intro he
      exact hL' (makeKey_level_inj L' L _ _ _ _ (by rw [← he, hk]))
  rw [processFeature_eq_folds]
  simp only [levelList, List.foldl_cons, List.foldl_nil]
  cases L with
  | Province =>
    rw [addEntry_get_other _ _ _ _ _ _ _ (hne .Village (by simp)),
      addEntry_get_other _ _ _ _ _ _ _ (hne .Cell (by simp)),
      addEntry_get_other _ _ _ _ _ _ _ (hne .Sector (by simp)),
      addEntry_get_other _ _ _ _ _ _ _ (hne .District (by simp)),
      hk, addEntry_get_self _ _ _ _ _ _ ht]
  | District =>
    rw [addEntry_get_other _ _ _ _ _ _ _ (hne .Village (by simp)),
      addEntry_get_other _ _ _ _ _ _ _ (hne .Cell (by simp)),
      addEntry_get_other _ _ _ _ _ _ _ (hne .Sector (by simp)),
      hk, addEntry_get_self _ _ _ _ _ _ ht,
      addEntry_get_other _ _ _ _ _ _ _ (hne .Province (by simp) |>.imp id (fun hh => hk ▸ hh))]
  | Sector =>
    rw [addEntry_get_other _ _ _ _ _ _ _ (hne .Village (by simp)),
      addEntry_get_other _ _ _ _ _ _ _ (hne .Cell (by simp)),
      hk, addEntry_get_self _ _ _ _ _ _ ht,
      addEntry_get_other _ _ _ _ _ _ _ (hne .District (by simp) |>.imp id (fun hh => hk ▸ hh)),
      addEntry_get_other _ _ _ _ _ _ _ (hne .Province (by simp) |>.imp id (fun hh => hk ▸ hh))]
  | Cell =>
    rw [addEntry_get_other _ _ _ _ _ _ _ (hne .Village (by simp)),
      hk, addEntry_get_self _ _ _ _ _ _ ht,
      addEntry_get_other _ _ _ _ _ _ _ (hne .Sector (by simp) |>.imp id (fun hh => hk ▸ hh)),
      addEntry_get_other _ _ _ _ _ _ _ (hne .District (by simp) |>.imp id (fun hh => hk ▸ hh)),
      addEntry_get_other _ _ _ _ _ _ _ (hne .Province (by simp) |>.imp id (fun hh => hk ▸ hh))]
  | Village =>
    rw [hk, addEntry_get_self _ _ _ _ _ _ ht,
      addEntry_get_other _ _ _ _ _ _ _ (hne .Cell (by simp) |>.imp id (fun hh => hk ▸ hh)),
      addEntry_get_other _ _ _ _ _ _ _ (hne .Sector (by simp) |>.imp id (fun hh => hk ▸ hh)),
      addEntry_get_other _ _ _ _ _ _ _ (hne .District (by simp) |>.imp id (fun hh => hk ▸ hh)),
      addEntry_get_other _ _ _ _ _ _ _ (hne .Province (by simp) |>.imp id (fun hh => hk ▸ hh))]

theorem addEntry_uniq (m : IndexMap) (level : Level) (name : Str) (idx : ℕ)
    (pk pl : Str) (h : m.Pairwise (fun a b => a.1 ≠ b.1)) :
    (addEntry m level name idx pk pl).Pairwise (fun a b => a.1 ≠ b.1) := by
  unfold addEntry
  by_cases hclean : trimStr name = []
  · simpa [hclean] using h
  · rw [if_neg hclean]
    by_cases hany : m.any (fun e => decide (e.1 = makeKey level (trimStr name) pk)) = true
    · rw [if_pos hany]
      rw [List.pairwise_map]
      refine h.imp_of_mem ?_
      intro a b _ _ hab
      have h1 : ∀ (e : Str × SearchItem),
          (if e.1 = makeKey level (trimStr name) pk then
            (e.1, { e.2 with indices := e.2.indices ++ [idx] }) else e).1 = e.1 := by
        intro e; split_ifs <;> rfl
      simpa only [h1] using hab
    · rw [if_neg hany]
      rw [List.pairwise_append]
      refine ⟨h, List.pairwise_singleton _ _, ?_⟩
      intro a ha b hb
      simp only [List.mem_singleton] at hb
      subst hb
      simp only [List.any_eq_true, not_exists, not_and] at hany
      intro he
      have := hany a ha
      simp only [decide_eq_true_eq] at this
      exact this he

theorem processFeature_uniq (m : IndexMap) (idx : ℕ) (f : Feature)
    (h : m.Pairwise (fun a b => a.1 ≠ b.1)) :
    (processFeature m idx f).Pairwise (fun a b => a.1 ≠ b.1) := by
  rw [processFeature_eq_folds]
  simp only [levelList, List.foldl_cons, List.foldl_nil]
  exact addEntry_uniq _ _ _ _ _ _ (addEntry_uniq _ _ _ _ _ _ (addEntry_uniq _ _ _ _ _ _
    (addEntry_uniq _ _ _ _ _ _ (addEntry_uniq _ _ _ _ _ _ h))))

theorem build_append (fs : List Feature) (f : Feature) :
    buildSearchIndexMap (fs ++ [f]) =
      processFeature (buildSearchIndexMap fs) fs.length f := by
  unfold buildSearchIndexMap
  rw [List.enum_append, List.foldl_append]
  simp [List.enumFrom_cons]

theorem regPred_true (f : Feature) (k : Str) (L : Level) (h : regKey f L = some k) :
    (levelList.any fun l => decide (regKey f l = some k)) = true := by
  refine List.any_eq_true.mpr ⟨L, ?_, by simp [h]⟩
  cases L <;> simp [levelList]

theorem regPred_false (f : Feature) (k : Str) (h : ∀ L, regKey f L ≠ some k) :
    (levelList.any fun l => decide (regKey f l = some k)) = false := by
  rw [List.any_eq_false]
  intro L _
  simp [h L]

theorem entryIndices_append (fs : List Feature) (f : Feature) (k : Str) :
    entryIndices (fs ++ [f]) k =
      entryIndices fs k ++
        (if (levelList.any fun l => decide (regKey f l = some k)) then [fs.length] else []) := by
  unfold entryIndices idxFilter
  rw [idxFilterFrom_append]
  congr 1
  rw [Nat.zero_add, idxFilterFrom_cons, idxFilterFrom_nil, List.append_nil]

theorem mem_entryIndices (fs : List Feature) (k : Str) (j : ℕ) :
    j ∈ entryIndices fs k ↔
      ∃ g, fs.get? j = some g ∧ ∃ L, regKey g L = some k := by
  unfold entryIndices idxFilter
  rw [mem_idxFilterFrom]
  simp only [Nat.zero_le, true_and, Nat.sub_zero, List.any_eq_true, decide_eq_true_eq]
  constructor
  · rintro ⟨x, hx, l, -, hl⟩
    exact ⟨x, hx, l, hl⟩
  · rintro ⟨g, hg, L, hL⟩
    exact ⟨g, hg, L, by cases L <;> simp [levelList], hL⟩

theorem build_spec (fs : List Feature) :
    (buildSearchIndexMap fs).Pairwise (fun a b => a.1 ≠ b.1) ∧
    (∀ k it, mapGet (buildSearchIndexMap fs) k = some it →
      it.id = k ∧ it.indices = entryIndices fs k ∧
      ∃ i0 f0, fs.get? i0 = some f0 ∧ regKey f0 it.level = some k) ∧
    (∀ i f l k, fs.get? i = some f → regKey f l = some k →
      (mapGet (buildSearchIndexMap fs) k).isSome = true) := by
  induction fs using List.reverseRecOn with
  | nil =>
    refine ⟨List.Pairwise.nil, ?_, ?_⟩
    · intro k it h
      simp [buildSearchIndexMap, mapGet] at h
    · intro i f l k hget _
      simp at hget
  | append_singleton fs f IH =>
    obtain ⟨IH1, IH2, IH3⟩ := IH
    rw [build_append]
    refine ⟨processFeature_uniq _ _ _ IH1, ?_, ?_⟩
    · intro k it hit
      by_cases hreg : ∃ l, regKey f l = some k
      · obtain ⟨L, hL⟩ := hreg
        rw [processFeature_get_reg _ fs.length f L k hL] at hit
        cases hm : mapGet (buildSearchIndexMap fs) k with
        | some it0 =>
          rw [hm] at hit
          simp only [Option.some.injEq] at hit
          obtain ⟨hid, hidx, i0, f0, hget0, hreg0⟩ := IH2 k it0 hm
          subst hit
          refine ⟨hid, ?_, i0, f0, ?_, hreg0⟩
          · rw [entryIndices_append, if_pos (regPred_true f k L hL), hidx]
          · have hlt : i0 < fs.length := by
              by_contra hge
              rw [List.get?_eq_none.mpr (by omega)] at hget0
              exact Option.noConfusion hget0
            rw [List.get?_append hlt]
            exact hget0
        | none =>
          rw [hm] at hit
          simp only [Option.some.injEq] at hit
          subst hit
          refine ⟨rfl, ?_, fs.length, f, ?_, hL⟩
          · rw [entryIndices_append, if_pos (regPred_true f k L hL)]
            have hnil : entryIndices fs k = [] := by
              cases hE : entryIndices fs k with
              | nil => rfl
              | cons a t =>
                exfalso
                have ha : a ∈ entryIndices fs k := by rw [hE]; exact List.mem_cons_self a t
                obtain ⟨g, hg, L', hL'⟩ := (mem_entryIndices fs k a).mp ha
                have := IH3 a g L' k hg hL'
                rw [hm] at this
                simp at this
            rw [hnil, List.nil_append]
          · exact List.get?_concat_length fs f
      · push_neg at hreg
        rw [processFeature_get_other _ _ _ _ hreg] at hit
        obtain ⟨hid, hidx, i0, f0, hget0, hreg0⟩ := IH2 k it hit
        refine ⟨hid, ?_, i0, f0, ?_, hreg0⟩
        · rw [entryIndices_append, if_neg (by rw [regPred_false f k hreg]; simp), hidx,
            List.append_nil]
        · have hlt : i0 < fs.length := by
            by_contra hge
            rw [List.get?_eq_none.mpr (by omega)] at hget0
            exact Option.noConfusion hget0
          rw [List.get?_append hlt]
          exact hget0
    · intro i f0 l k hget hr
      by_cases hreg : ∃ l', regKey f l' = some k
      · obtain ⟨L', hL'⟩ := hreg
        rw [processFeature_get_reg _ fs.length f L' k hL']
        rfl
      · push_neg at hreg
        rw [processFeature_get_other _ _ _ _ hreg]
        rcases Nat.lt_trichotomy i fs.length with hlt | heq | hgt
        · rw [List.get?_append hlt] at hget
          exact IH3 i f0 l k hget hr
        · subst heq
          rw [List.get?_concat_length] at hget
          simp only [Option.some.injEq] at hget
          subst hget
          exact absurd hr (hreg l)
        · rw [List.get?_eq_none.mpr (by simp; omega)] at hget
          exact Option.noConfusion hget

theorem mapGet_of_mem_uniq (m : IndexMap) (e : Str × SearchItem)
    (huniq : m.Pairwise (fun a b => a.1 ≠ b.1)) (he : e ∈ m) :
    mapGet m e.1 = some e.2 := by
  induction m with
  | nil => exact absurd he (List.not_mem_nil e)
  | cons a as ih =>
    rw [List.pairwise_cons] at huniq
    rcases List.mem_cons.mp he with he | he
    · subst he
      simp [mapGet, List.find?_cons]
    · have hne : a.1 ≠ e.1 := huniq.1 e he
      simp only [mapGet, List.find?_cons, decide_eq_false hne]
      exact ih huniq.2 he

theorem mapGet_some_mem (m : IndexMap) (k : Str) (it : SearchItem)
    (h : mapGet m k = some it) : ∃ e ∈ m, e.1 = k ∧ e.2 = it := by
  unfold mapGet at h
  cases hf : m.find? (fun e => decide (e.1 = k)) with
  | none => rw [hf] at h; exact Option.noConfusion h
  | some e =>
    rw [hf] at h
    simp only [Option.map_some', Option.some.injEq] at h
    exact ⟨e, List.mem_of_find?_eq_some hf, by simpa using List.find?_some hf, h⟩

theorem filterMapSum_zero {Q : Str × SearchItem → Bool} {g : Str × SearchItem → ℕ}
    (m : IndexMap) (h : ∀ e ∈ m, Q e = true → g e = 0) :
    ((m.filter Q).map g).sum = 0 := by
  induction m with
  | nil => rfl
  | cons a as ih =>
    rw [List.filter_cons]
    by_cases hq : Q a = true
    · simp only [hq, if_pos, List.map_cons, List.sum_cons]
      rw [h a (List.mem_cons_self a as) hq,
        ih (fun e he hqe => h e (List.mem_cons_of_mem _ he) hqe)]
    · simp only [hq, Bool.false_eq_true, if_neg, not_false_iff]
      exact ih (fun e he hqe => h e (List.mem_cons_of_mem _ he) hqe)

theorem filterMapSum_one {Q : Str × SearchItem → Bool} {g : Str × SearchItem → ℕ}
    (m : IndexMap) (k : Str)
    (huniq : m.Pairwise (fun a b => a.1 ≠ b.1))
    (hval : ∀ e ∈ m, Q e = true → g e = if e.1 = k then 1 else 0)
    (hQ : ∀ e ∈ m, e.1 = k → Q e = true)
    (hex : ∃ e ∈ m, e.1 = k) :
    ((m.filter Q).map g).sum = 1 := by
  induction m with
  | nil => obtain ⟨e, he, -⟩ := hex; exact absurd he (List.not_mem_nil e)
  | cons a as ih =>
    rw [List.pairwise_cons] at huniq
    by_cases hak : a.1 = k
    · have hqa : Q a = true := hQ a (List.mem_cons_self a as) hak
      rw [List.filter_cons, if_pos hqa]
      simp only [List.map_cons, List.sum_cons]
      rw [hval a (List.mem_cons_self a as) hqa, if_pos hak]
      have hzero : ((as.filter Q).map g).sum = 0 := by
        apply filterMapSum_zero
        intro e he hqe
        rw [hval e (List.mem_cons_of_mem _ he) hqe, if_neg]
        intro hek
        exact huniq.1 e he (hak.trans hek.symm)
      rw [hzero]
    · have hex' : ∃ e ∈ as, e.1 = k := by
        obtain ⟨e, he, hek⟩ := hex
        rcases List.mem_cons.mp he with he | he
        · subst he; exact absurd hek hak
        · exact ⟨e, he, hek⟩
      have ihs := ih huniq.2
        (fun e he hqe => hval e (List.mem_cons_of_mem _ he) hqe)
        (fun e he hek => hQ e (List.mem_cons_of_mem _ he) hek) hex'
      rw [List.filter_cons]
      by_cases hqa : Q a = true
      · simp only [hqa, if_pos, List.map_cons, List.sum_cons]
        rw [hval a (List.mem_cons_self a as) hqa, if_neg hak, ihs]
      · simp only [hqa, Bool.false_eq_true, if_neg, not_false_iff]
        exact ihs

/-- C10: in every entry of the map built by `buildSearchIndexMap`, the
`indices` list is strictly increasing — each feature index appears at
most once per entry, in input feature order, with no duplicates. -/
theorem c10_entry_indices_strictly_increasing (features : List Feature) :
    (buildSearchIndexMap features).Forall
      (fun e => e.2.indices.Pairwise (fun a b => a < b)) := by
  rw [List.forall_iff_forall_mem]
  intro e he
  obtain ⟨huniq, hchar, -⟩ := build_spec features
  have hget := mapGet_of_mem_uniq _ _ huniq he
  obtain ⟨-, hidx, -⟩ := hchar e.1 e.2 hget
  rw [hidx]
  unfold entryIndices idxFilter
  exact pairwise_idxFilterFrom _ 0 features

/-- C6: every feature contributes exactly one entry registration at each
of the five hierarchy levels: the total number of occurrences of its
index over the level's entries is `1`, and it is `0` exactly when the
level's name attribute is empty after trimming; a missing, null or
empty-string attribute has already been normalized to `"Unknown"` by
`getProp` before this check. -/
theorem c6_one_registration_per_level (features : List Feature) (i : ℕ) (f : Feature)
    (hf : features.get? i = some f) (L : Level) :
    ((((buildSearchIndexMap features).filter (fun e => decide (e.2.level = L))).map
        (fun e => e.2.indices.count i)).sum =
      if trimStr (levelName f L) = [] then 0 else 1) ∧
    (∀ (p : List (Str × Str)) (key : Str),
      assocFind p key = none ∨ assocFind p key = some [] → getProp p key = unknownStr) := by
  obtain ⟨huniq, hchar, hcomp⟩ := build_spec features
  constructor
  · split_ifs with ht
    · apply filterMapSum_zero
      intro e he hq
      have hget := mapGet_of_mem_uniq _ _ huniq he
      obtain ⟨-, hidx, i0, f0, hget0, hreg0⟩ := hchar e.1 e.2 hget
      rw [hidx]
      unfold entryIndices idxFilter
      rw [count_idxFilterFrom, if_neg]
      rintro ⟨-, x, hx, hP⟩
      rw [Nat.sub_zero, hf] at hx
      have hxf : f = x := Option.some.inj hx
      subst hxf
      obtain ⟨L', -, hL'⟩ := List.any_eq_true.mp hP
      rw [decide_eq_true_eq] at hL'
      have hlev : L' = e.2.level := regKey_level_inj _ _ _ _ _ hL' hreg0
      rw [decide_eq_true_eq] at hq
      rw [hlev, hq] at hL'
      unfold regKey at hL'
      rw [if_pos ht] at hL'
      exact Option.noConfusion hL'
    · have hk : regKey f L =
          some (makeKey L (trimStr (levelName f L)) (levelParentsKey f L)) := by
        unfold regKey
        rw [if_neg ht]
      apply filterMapSum_one _ (makeKey L (trimStr (levelName f L)) (levelParentsKey f L))
        huniq
      · intro e he hq
        have hget := mapGet_of_mem_uniq _ _ huniq he
        obtain ⟨-, hidx, i0, f0, hget0, hreg0⟩ := hchar e.1 e.2 hget
        rw [hidx]
        unfold entryIndices idxFilter
        rw [count_idxFilterFrom]
        by_cases hek : e.1 = makeKey L (trimStr (levelName f L)) (levelParentsKey f L)
        · rw [if_pos, if_pos hek]
          refine ⟨Nat.zero_le i, f, by rw [Nat.sub_zero]; exact hf, ?_⟩
          exact regPred_true f e.1 L (by rw [hek]; exact hk)
        · rw [if_neg, if_neg hek]
          rintro ⟨-, x, hx, hP⟩
          rw [Nat.sub_zero, hf] at hx
          have hxf : f = x := Option.some.inj hx
          subst hxf
          obtain ⟨L', -, hL'⟩ := List.any_eq_true.mp hP
          rw [decide_eq_true_eq] at hL'
          have hlev : L' = e.2.level := regKey_level_inj _ _ _ _ _ hL' hreg0
          rw [decide_eq_true_eq] at hq
          rw [hlev, hq, hk] at hL'
          exact hek (Option.some.inj hL').symm
      · intro e he hek
        have hget := mapGet_of_mem_uniq _ _ huniq he
        obtain ⟨-, -, i0, f0, hget0, hreg0⟩ := hchar e.1 e.2 hget
        rw [decide_eq_true_eq]
        exact regKey_level_inj f0 f e.2.level L e.1 hreg0 (by rw [hek]; exact hk)
      · have hsome := hcomp i f L _ hf hk
        cases hget : mapGet (buildSearchIndexMap features)
            (makeKey L (trimStr (levelName f L)) (levelParentsKey f L)) with
        | none => rw [hget] at hsome; simp at hsome
        | some it =>
          obtain ⟨e, he, hek, -⟩ := mapGet_some_mem _ _ _ hget
          exact ⟨e, he, hek⟩
  · intro p key h
    unfold getProp
    rcases h with h | h <;> rw [h] <;> simp

theorem append_cancel_left_str (a b c : Str) (h : a ++ b = a ++ c) : b = c := by
  induction a with
  | nil => exact h
  | cons x xs ih =>
    simp only [List.cons_append, List.cons.injEq] at h
    exact ih h.2

theorem makeKey_parents_inj (L : Level) (n p1 p2 : Str)
    (h : makeKey L n p1 = makeKey L n p2) : normalize p1 = normalize p2 := by
  unfold makeKey at h
  have h1 := append_cancel_left_str _ _ _ h
  simp only [List.cons.injEq, true_and] at h1
  have h2 := append_cancel_left_str _ _ _ h1
  simp only [List.cons.injEq, true_and] at h2
  exact h2

/-- Features used by the concrete search-index statements: two features
named `"A"` at the Province level whose ancestor chains (`"B"` vs `"b"`)
differ as strings but normalize identically. -/
def featCaseB : Feature := ⟨.otherGeom, [(nameKey1, ['A']), (nameKey0, ['B'])]⟩
def featCaseLb : Feature := ⟨.otherGeom, [(nameKey1, ['A']), (nameKey0, ['b'])]⟩

/-- C2, counterexample: the claim promises that two features with
identical names at a level and *different ancestor chains* produce two
distinct search entries, each aggregating only its own indices.  The
features `featCaseB`/`featCaseLb` have identical Province names and
different ancestor chains (`"B"` ≠ `"b"`), yet the built index holds a
single Province-level entry aggregating both feature indices, because
keys are built from the *normalized* parent path and `"B"`/`"b"`
normalize to the same string. -/
theorem c2_counterexample :
    levelName featCaseB .Province = levelName featCaseLb .Province ∧
    getProp featCaseB.properties nameKey0 ≠ getProp featCaseLb.properties nameKey0 ∧
    ((buildSearchIndexMap [featCaseB, featCaseLb]).filter
        (fun e => decide (e.2.level = Level.Province))).map (fun e => e.2.indices) =
      [[0, 1]] := by decide

/-- C2, amended: deduplication is by the composite key
(level, normalized trimmed name, normalized parent path).  Two features
whose names at a level are identical and whose parent paths differ
*after normalization* register two distinct keys with two distinct
entries; each entry aggregates exactly the indices of the features
whose level, normalized name and normalized parent path produce that
entry's key — in particular neither aggregates the other's index. -/
theorem c2_dedup_by_composite_key (features : List Feature) (i j : ℕ)
    (fi fj : Feature) (L : Level)
    (hi : features.get? i = some fi) (hj : features.get? j = some fj)
    (hname : levelName fi L = levelName fj L)
    (hpar : normalize (levelParentsKey fi L) ≠ normalize (levelParentsKey fj L))
    (hnm : ¬ trimStr (levelName fi L) = []) :
    ∃ ki kj iti itj,
      regKey fi L = some ki ∧ regKey fj L = some kj ∧ ki ≠ kj ∧
      mapGet (buildSearchIndexMap features) ki = some iti ∧
      mapGet (buildSearchIndexMap features) kj = some itj ∧
      iti ≠ itj ∧
      i ∈ iti.indices ∧ j ∈ itj.indices ∧ j ∉ iti.indices ∧ i ∉ itj.indices ∧
      (∀ mI : ℕ, mI ∈ iti.indices ↔
        ∃ g, features.get? mI = some g ∧ regKey g L = some ki) ∧
      (∀ mI : ℕ, mI ∈ itj.indices ↔
        ∃ g, features.get? mI = some g ∧ regKey g L = some kj) := by
  obtain ⟨huniq, hchar, hcomp⟩ := build_spec features
  have hnmj : ¬ trimStr (levelName fj L) = [] := by rw [← hname]; exact hnm
  have hki : regKey fi L =
      some (makeKey L (trimStr (levelName fi L)) (levelParentsKey fi L)) := by
    unfold regKey; rw [if_neg hnm]
  have hkj : regKey fj L =
      some (makeKey L (trimStr (levelName fj L)) (levelParentsKey fj L)) := by
    unfold regKey; rw [if_neg hnmj]
  set ki := makeKey L (trimStr (levelName fi L)) (levelParentsKey fi L) with hki_def
  set kj := makeKey L (trimStr (levelName fj L)) (levelParentsKey fj L) with hkj_def
  have hkne : ki ≠ kj := by
    intro he
    rw [hki_def, hkj_def, ← hname] at he
    exact hpar (makeKey_parents_inj L _ _ _ he)
  have hsi := hcomp i fi L ki hi hki
  have hsj := hcomp j fj L kj hj hkj
  obtain ⟨iti, hgi⟩ := Option.isSome_iff_exists.mp hsi
  obtain ⟨itj, hgj⟩ := Option.isSome_iff_exists.mp hsj
  obtain ⟨hidI, hidxI, -⟩ := hchar ki iti hgi
  obtain ⟨hidJ, hidxJ, -⟩ := hchar kj itj hgj
  have hmemI : ∀ mI : ℕ, mI ∈ iti.indices ↔
      ∃ g, features.get? mI = some g ∧ regKey g L = some ki := by
    intro mI
    rw [hidxI, mem_entryIndices]
    constructor
    · rintro ⟨g, hg, L', hL'⟩
      have : L' = L := regKey_level_inj g fi L' L ki hL' hki
      exact ⟨g, hg, this ▸ hL'⟩
    · rintro ⟨g, hg, hL⟩
      exact ⟨g, hg, L, hL⟩
  have hmemJ : ∀ mI : ℕ, mI ∈ itj.indices ↔
      ∃ g, features.get? mI = some g ∧ regKey g L = some kj := by
    intro mI
    rw [hidxJ, mem_entryIndices]
    constructor
    · rintro ⟨g, hg, L', hL'⟩
      have : L' = L := regKey_level_inj g fj L' L kj hL' hkj
      exact ⟨g, hg, this ▸ hL'⟩
    · rintro ⟨g, hg, hL⟩
      exact ⟨g, hg, L, hL⟩
  refine ⟨ki, kj, iti, itj, hki, hkj, hkne, hgi, hgj, ?_, ?_, ?_, ?_, ?_, hmemI, hmemJ⟩
  · intro he
    apply hkne
    rw [← hidI, ← hidJ, he]
  · exact (hmemI i).mpr ⟨fi, hi, hki⟩
  · exact (hmemJ j).mpr ⟨fj, hj, hkj⟩
  · intro hmem
    obtain ⟨g, hg, hreg⟩ := (hmemI j).mp hmem
    rw [hj] at hg
    have : fj = g := Option.some.inj hg
    subst this
    rw [hkj] at hreg
    exact hkne (Option.some.inj hreg).symm
  · intro hmem
    obtain ⟨g, hg, hreg⟩ := (hmemJ i).mp hmem
    rw [hi] at hg
    have : fi = g := Option.some.inj hg
    subst this
    rw [hki] at hreg
    exact hkne (Option.some.inj hreg)

/-- Two features named `"N"` under genuinely different normalized
parents `"P"` and `"Q"`. -/
def featParP : Feature := ⟨.otherGeom, [(nameKey1, ['N']), (nameKey0, ['P'])]⟩
def featParQ : Feature := ⟨.otherGeom, [(nameKey1, ['N']), (nameKey0, ['Q'])]⟩

/-- Witness for the amended C2 at a concrete input. -/
theorem c2_dedup_by_composite_key_witness :
    ∃ ki kj iti itj,
      regKey featParP .Province = some ki ∧ regKey featParQ .Province = some kj ∧
      ki ≠ kj ∧
      mapGet (buildSearchIndexMap [featParP, featParQ]) ki = some iti ∧
      mapGet (buildSearchIndexMap [featParP, featParQ]) kj = some itj ∧
      iti ≠ itj ∧
      0 ∈ iti.indices ∧ 1 ∈ itj.indices ∧ 1 ∉ iti.indices ∧ 0 ∉ itj.indices ∧
      (∀ mI : ℕ, mI ∈ iti.indices ↔
        ∃ g, [featParP, featParQ].get? mI = some g ∧ regKey g .Province = some ki) ∧
      (∀ mI : ℕ, mI ∈ itj.indices ↔
        ∃ g, [featParP, featParQ].get? mI = some g ∧ regKey g .Province = some kj) :=
  c2_dedup_by_composite_key [featParP, featParQ] 0 1 featParP featParQ .Province
    rfl rfl (by decide) (by decide) (by decide)

theorem splitWsGo_fuel : ∀ (n : ℕ) (l : Str), l.length ≤ n → ∀ f1 f2 : ℕ,
    l.length < f1 → l.length < f2 → splitWsGo f1 l = splitWsGo f2 l := by
  intro n
  induction n with
  | zero =>
    intro l hl f1 f2 h1 h2
    have hnil : l = [] := List.length_eq_zero.mp (Nat.le_zero.mp hl)
    subst hnil
    obtain ⟨f1', rfl⟩ : ∃ k, f1 = k + 1 := ⟨f1 - 1, by omega⟩
    obtain ⟨f2', rfl⟩ : ∃ k, f2 = k + 1 := ⟨f2 - 1, by omega⟩
    rfl
  | succ n ih =>
    intro l hl f1 f2 h1 h2
    obtain ⟨f1', rfl⟩ : ∃ k, f1 = k + 1 := ⟨f1 - 1, by omega⟩
    obtain ⟨f2', rfl⟩ : ∃ k, f2 = k + 1 := ⟨f2 - 1, by omega⟩
    cases hd : l.dropWhile (fun c => !isJsWs c) with
    | nil => simp [splitWsGo, hd]
    | cons c t =>
      simp only [splitWsGo, hd]
      congr 1
      have hts : (t.dropWhile isJsWs).length ≤ t.length :=
        (List.dropWhile_sublist isJsWs).length_le
      have hds : (l.dropWhile (fun c => !isJsWs c)).length ≤ l.length :=
        (List.dropWhile_sublist _).length_le
      rw [hd] at hds
      simp only [List.length_cons] at hds
      exact ih (t.dropWhile isJsWs) (by omega) f1' f2' (by omega) (by omega)

/-- The step equation of `splitWsFields`. -/
theorem splitWsFields_eq (l : Str) :
    splitWsFields l =
      match l.dropWhile (fun c => !isJsWs c) with
      | [] => [l.takeWhile (fun c => !isJsWs c)]
      | _ :: t => l.takeWhile (fun c => !isJsWs c) :: splitWsFields (t.dropWhile isJsWs) := by
  unfold splitWsFields
  conv_lhs => rw [splitWsGo]
  cases hd : l.dropWhile (fun c => !isJsWs c) with
  | nil => rfl
  | cons c t =>
    have hts : (t.dropWhile isJsWs).length ≤ t.length :=
      (List.dropWhile_sublist isJsWs).length_le
    have hds : (l.dropWhile (fun c => !isJsWs c)).length ≤ l.length :=
      (List.dropWhile_sublist _).length_le
    rw [hd] at hds
    simp only [List.length_cons] at hds
    simp only []
    congr 1
    exact splitWsGo_fuel (t.dropWhile isJsWs).length _ (le_refl _) _ _ (by omega) (by omega)

/-- C9: a query whose normalized text has fewer than 2 characters, with
no level filter, yields the empty result list (the guard at the top of
the `results` memo). -/
theorem c9_short_query_returns_empty (searchIndex : List SearchItem) (nq : Str)
    (h : nq.length < 2) : resultsFor searchIndex none nq = [] := by
  simp [resultsFor, h]

/-- A sample search entry for concrete statements. -/
def sampleItem : SearchItem :=
  ⟨['x'], .Cell, ['x'], ['y'], ['x', ' ', 'y'], [0]⟩

/-- Witness for C9 at a concrete input. -/
theorem c9_short_query_returns_empty_witness :
    resultsFor [sampleItem] none ['a'] = [] :=
  c9_short_query_returns_empty [sampleItem] ['a'] (by decide)

theorem levelOrderNum_inj (l1 l2 : Level) (h : levelOrderNum l1 = levelOrderNum l2) :
    l1 = l2 := by
  cases l1 <;> cases l2 <;> first | rfl | (exfalso; simp [levelOrderNum] at h)

theorem resultComp_trans (nq : Str) : ∀ a b c : SearchItem,
    resultComp nq a b = true → resultComp nq b c = true → resultComp nq a c = true := by
  intro a b c hab hbc
  simp only [resultComp, compKey] at hab hbc ⊢
  split_ifs at hab hbc ⊢ <;> simp_all <;> omega

theorem resultComp_total (nq : Str) : ∀ a b : SearchItem,
    (resultComp nq a b || resultComp nq b a) = true := by
  intro a b
  simp only [resultComp, compKey]
  split_ifs <;> simp_all <;> omega

/-- C7: with a normalized query of at least 2 characters, the result
list is ranked by (1) name-starts-with-query first, (2) hierarchy level
ascending, (3) ascending aggregated-index count; it is truncated to at
most 50 entries, all of which survived the level and substring filters. -/
theorem c7_ranking_and_truncation (searchIndex : List SearchItem)
    (filterLevel : Option Level) (nq : Str) (h2 : 2 ≤ nq.length) :
    (resultsFor searchIndex filterLevel nq).length ≤ 50 ∧
    (resultsFor searchIndex filterLevel nq).Pairwise (fun a b =>
      (if nq.isPrefixOf (normalize a.name) then 0 else 1) <
          (if nq.isPrefixOf (normalize b.name) then 0 else 1) ∨
        ((if nq.isPrefixOf (normalize a.name) then (0 : ℕ) else 1) =
            (if nq.isPrefixOf (normalize b.name) then 0 else 1) ∧
          (levelOrderNum a.level < levelOrderNum b.level ∨
            (a.level = b.level ∧ a.indices.length ≤ b.indices.length)))) ∧
    (∀ it ∈ resultsFor searchIndex filterLevel nq,
      it ∈ searchIndex ∧ containsSub nq it.searchText = true ∧
      ∀ l, filterLevel = some l → it.level = l) := by
  have hguard : ¬ (nq.length < 2 ∧ filterLevel = none) := by
    rintro ⟨hlt, -⟩; omega
  rw [resultsFor.eq_def, if_neg hguard]
  simp only [if_pos h2]
  set f1 := match filterLevel with
    | some l => searchIndex.filter (fun it : SearchItem => decide (it.level = l))
    | none => searchIndex with hf1
  set f2 := f1.filter (fun it : SearchItem => containsSub nq it.searchText) with hf2
  refine ⟨?_, ?_, ?_⟩
  · exact List.length_take_le 50 _
  · have hsorted := @List.sorted_mergeSort SearchItem (resultComp nq)
      (resultComp_trans nq) (resultComp_total nq) f2
    have htake : ((f2.mergeSort (resultComp nq)).take 50).Pairwise
        (fun a b => resultComp nq a b = true) :=
      hsorted.sublist (List.take_sublist 50 _)
    refine htake.imp ?_
    intro a b hab
    simp only [resultComp, compKey, if_pos h2] at hab
    generalize hra : (if List.isPrefixOf nq (normalize a.name) = true then (0 : ℕ) else 1) = ra
      at hab ⊢
    generalize hrb : (if List.isPrefixOf nq (normalize b.name) = true then (0 : ℕ) else 1) = rb
      at hab ⊢
    by_cases hr : ra = rb
    · rw [if_neg (fun h => h hr)] at hab
      by_cases hl : levelOrderNum a.level = levelOrderNum b.level
      · rw [if_neg (fun h => h hl)] at hab
        exact Or.inr ⟨hr, Or.inr ⟨levelOrderNum_inj _ _ hl, by simpa using hab⟩⟩
      · rw [if_pos hl] at hab
        exact Or.inr ⟨hr, Or.inl (by simpa using hab)⟩
    · rw [if_pos hr] at hab
      exact Or.inl (by simpa using hab)
  · intro it hit
    have hmem2 : it ∈ f2 := by
      have hms : it ∈ f2.mergeSort (resultComp nq) :=
        (List.take_sublist 50 (f2.mergeSort (resultComp nq))).subset hit
      exact (List.mergeSort_perm f2 (resultComp nq)).subset hms
    rw [hf2, List.mem_filter] at hmem2
    obtain ⟨hmem1, hcont⟩ := hmem2
    refine ⟨?_, hcont, ?_⟩
    · rw [hf1] at hmem1
      cases filterLevel with
      | none => exact hmem1
      | some l => exact (List.mem_filter.mp hmem1).1
    · intro l hl
      subst hl
      rw [hf1] at hmem1
      have := (List.mem_filter.mp hmem1).2
      simpa using this

/-- Witness for C7 at a concrete input. -/
theorem c7_ranking_and_truncation_witness :
    2 ≤ (['x', ' ', 'y'] : Str).length ∧
    (resultsFor [sampleItem] none ['x', ' ', 'y']).length ≤ 50 :=
  ⟨by decide, (c7_ranking_and_truncation [sampleItem] none ['x', ' ', 'y'] (by decide)).1⟩

/-- The query `":cell ab cd"`. -/
def queryCellAbCd : Str := [':', 'c', 'e', 'l', 'l', ' ', 'a', 'b', ' ', 'c', 'd']

/-- A Cell entry whose search text is `"zq ab"`: it contains `"ab"` but
not `"ab cd"`. -/
def itemZqAb : SearchItem :=
  ⟨['k'], .Cell, ['z', 'q', ' ', 'a', 'b'], [], ['z', 'q', ' ', 'a', 'b'], [0]⟩

/-- C8, counterexample: for the query `":cell ab cd"` the claim says the
text query is the whole remainder `"ab cd"`; the code instead keeps only
the second whitespace-separated field, `"ab"` (`split(/\s+/, 2)[1]`),
and accordingly returns an entry whose search text does not contain the
remainder `"ab cd"` at all. -/
theorem c8_counterexample :
    (parseQuery queryCellAbCd).1 = some Level.Cell ∧
    (parseQuery queryCellAbCd).2 = ['a', 'b'] ∧
    normalize ['a', 'b', ' ', 'c', 'd'] = ['a', 'b', ' ', 'c', 'd'] ∧
    resultsFor [itemZqAb] (parseQuery queryCellAbCd).1 (parseQuery queryCellAbCd).2 =
      [itemZqAb] ∧
    containsSub (normalize ['a', 'b', ' ', 'c', 'd']) itemZqAb.searchText = false := by
  refine ⟨by decide, by decide, by decide, ?_, by decide⟩
  have h1 : (parseQuery queryCellAbCd).1 = some Level.Cell := by decide
  have h2 : (parseQuery queryCellAbCd).2 = ['a', 'b'] := by decide
  rw [h1, h2]
  rw [resultsFor.eq_def]
  rw [if_neg (by rintro ⟨-, h⟩; exact Option.noConfusion h)]
  simp only []
  rw [if_pos (by decide)]
  rw [List.filter_cons, if_pos (by decide), List.filter_nil,
    List.filter_cons, if_pos (by decide), List.filter_nil,
    List.mergeSort_singleton, List.take_succ_cons, List.take_nil]

/-- C8, amended: a query starting with `":"` is split on whitespace; if
the first field (lower-cased) is a recognized level keyword the search
is restricted to that level and the *second field alone* becomes the
text query (words beyond it are discarded); an unrecognized or partial
first field yields no level filter and, when nonempty, prefix-matched
level-keyword suggestions. -/
theorem c8_level_prefix_parsing (q : Str) (hq : (trimStr q).head? = some ':') :
    ((∀ l : Level,
        levelMapLookup (((splitWsFields ((trimStr q).drop 1)).getD 0 []).map Char.toLower) =
          some l →
        parseQuery q = (some l, normalize ((splitWsFields ((trimStr q).drop 1)).getD 1 []))) ∧
     (levelMapLookup (((splitWsFields ((trimStr q).drop 1)).getD 0 []).map Char.toLower) =
        none → (parseQuery q).1 = none) ∧
     (levelMapLookup (((splitWsFields ((trimStr q).drop 1)).getD 0 []).map Char.toLower) =
        none →
      ((splitWsFields ((trimStr q).drop 1)).getD 0 []).map Char.toLower ≠ [] →
      typePrefixSuggestions q =
        allTypePrefixes.filter
          (fun pre =>
            ((((splitWsFields ((trimStr q).drop 1)).getD 0 []).map Char.toLower).map
              Char.toLower).isPrefixOf (pre.map Char.toLower)))) := by
  set tok1 := ((splitWsFields ((trimStr q).drop 1)).getD 0 []).map Char.toLower with htok
  refine ⟨?_, ?_, ?_⟩
  · intro l hl
    have htok_ne : tok1 ≠ [] := by
      intro he
      rw [he] at hl
      exact Option.noConfusion hl
    simp only [parseQuery, hq, if_pos rfl, if_true, ← htok]
    rw [if_neg htok_ne, hl]
  · intro hl
    simp only [parseQuery, hq, if_pos rfl, if_true, ← htok]
    by_cases he : tok1 = []
    · rw [if_pos he]
    · rw [if_neg he, hl]
  · intro hl hne
    simp only [typePrefixSuggestions, hq, if_pos rfl, if_true, ← htok]
    rw [if_pos ⟨trivial, hne, fun hv => by rw [hl] at hv; simp at hv⟩]

/-- The queries `":cell ab"` and `":ce"` used by the C8 witness. -/
def queryCellAb : Str := [':', 'c', 'e', 'l', 'l', ' ', 'a', 'b']
def queryCe : Str := [':', 'c', 'e']

/-- Witness for the amended C8 at concrete inputs: `":cell ab"` parses
to the Cell filter with text `"ab"`, `":ce"` gives no filter and the
single suggestion `"cell"`. -/
theorem c8_level_prefix_parsing_witness :
    parseQuery queryCellAb =
      (some Level.Cell,
        normalize ((splitWsFields ((trimStr queryCellAb).drop 1)).getD 1 [])) ∧
    (parseQuery queryCe).1 = none ∧
    typePrefixSuggestions queryCe =
      allTypePrefixes.filter
        (fun pre =>
          ((((splitWsFields ((trimStr queryCe).drop 1)).getD 0 []).map Char.toLower).map
            Char.toLower).isPrefixOf (pre.map Char.toLower)) :=
  ⟨(c8_level_prefix_parsing queryCellAb (by decide)).1 Level.Cell (by decide),
   (c8_level_prefix_parsing queryCe (by decide)).2.1 (by decide),
   (c8_level_prefix_parsing queryCe (by decide)).2.2 (by decide) (by decide)⟩

theorem bne_comm_bool (x y : Bool) : (x != y) = (y != x) := by
  cases x <;> cases y <;> rfl

/-- The ray-cast edge intersection abscissa is symmetric in the two
edge endpoints (when their latitudes differ). -/
theorem xInt_symm (p a b : Coord) (h : a.2 ≠ b.2) :
    (b.1 - a.1) * (p.2 - a.2) / (b.2 - a.2) + a.1 =
      (a.1 - b.1) * (p.2 - b.2) / (a.2 - b.2) + b.1 := by
  have h1 : b.2 - a.2 ≠ 0 := sub_ne_zero.mpr (Ne.symm h)
  have h2 : a.2 - b.2 ≠ 0 := sub_ne_zero.mpr h
  field_simp
  ring

/-- C4: degenerate geometry never crashes and contains no point —
`isPointInRing` returns `false` on every ring of length 0, 1 or 2, and
`isPointInPolygonCoords` returns `false` on an empty coordinates array
(all four routines are total functions in the model; the two-edge case
cancels because both wrap-around edges toggle together). -/
theorem c4_degenerate_rings_contain_nothing (p a b : Coord) :
    isPointInRing p [] = false ∧ isPointInRing p [a] = false ∧
    isPointInRing p [a, b] = false ∧ isPointInPolygonCoords p [] = false := by
  refine ⟨rfl, ?_, ?_, rfl⟩
  · have hr : List.range 1 = [0] := by decide
    simp [isPointInRing, hr]
  · have hr : List.range 2 = [0, 1] := by decide
    simp only [isPointInRing, List.length_cons, List.length_nil, hr, List.foldl_cons,
      List.foldl_nil]
    norm_num
    split_ifs with hA
    · have hy : a.2 ≠ b.2 := fun he => hA.1 (by rw [he])
      refine ⟨fun h => hA.1 h.symm, ?_⟩
      rw [xInt_symm p a b hy]
      exact hA.2
    · intro hiff
      have hy : a.2 ≠ b.2 := fun he => hiff (by rw [he])
      have h2 : ¬ (p.1 < (a.1 - b.1) * (p.2 - b.2) / (a.2 - b.2) + b.1) :=
        fun hx => hA ⟨fun h => hiff h.symm, hx⟩
      rw [xInt_symm p a b hy]
      exact not_lt.mp h2

/-- Modelled from the spec (C5 wording): the ray-cast rule with the
point's latitude *strictly between* the edge's endpoint latitudes. -/
def isPointInRingStrictBetween (point : Coord) (ring : Ring) : Bool :=
  (List.range ring.length).foldl
    (fun inside i =>
      let j := if i = 0 then ring.length - 1 else i - 1
      let xi := (ring.getD i (0, 0)).1
      let yi := (ring.getD i (0, 0)).2
      let xj := (ring.getD j (0, 0)).1
      let yj := (ring.getD j (0, 0)).2
      let intersect :=
        (decide (min yi yj < point.2) && decide (point.2 < max yi yj)) &&
        decide (point.1 < (xj - xi) * (point.2 - yi) / (yj - yi) + xi)
      if intersect then !inside else inside)
    false

/-- The half-open variant: the point's latitude lies in
`min ≤ lat < max` (what the code's `yi > lat !== yj > lat` computes). -/
def isPointInRingHalfOpenBand (point : Coord) (ring : Ring) : Bool :=
  (List.range ring.length).foldl
    (fun inside i =>
      let j := if i = 0 then ring.length - 1 else i - 1
      let xi := (ring.getD i (0, 0)).1
      let yi := (ring.getD i (0, 0)).2
      let xj := (ring.getD j (0, 0)).1
      let yj := (ring.getD j (0, 0)).2
      let intersect :=
        (decide (min yi yj ≤ point.2) && decide (point.2 < max yi yj)) &&
        decide (point.1 < (xj - xi) * (point.2 - yi) / (yj - yi) + xi)
      if intersect then !inside else inside)
    false

theorem band_eq (yi yj c : ℚ) :
    (decide (yi > c) != decide (yj > c)) =
      (decide (min yi yj ≤ c) && decide (c < max yi yj)) := by
  rcases le_total yi yj with h | h <;> by_cases h1 : c < yi <;> by_cases h2 : c < yj <;>
    simp [min_def, max_def, h, h1, h2, GT.gt] <;> linarith

/-- The triangle `(5,0), (0,1), (0,-1)` and the interior point `(1,0)`
whose latitude equals the latitude of the vertex `(5,0)`. -/
def triangleVertexRing : Ring := [((5 : ℚ), (0 : ℚ)), ((0 : ℚ), (1 : ℚ)), ((0 : ℚ), (-1 : ℚ))]

/-- C5, counterexample: the code's rule is half-open
(`yi > lat !== yj > lat`, i.e. `min ≤ lat < max`), not "strictly
between".  At the point `(1,0)` inside `triangleVertexRing` the ray
passes through the vertex `(5,0)`: the code counts one crossing and
reports the point inside, while the strictly-between rule of the claim
counts none and reports it outside. -/
theorem c5_counterexample :
    isPointInRing ((1 : ℚ), 0) triangleVertexRing = true ∧
    isPointInRingStrictBetween ((1 : ℚ), 0) triangleVertexRing = false := by
  have hr : List.range 3 = [0, 1, 2] := by decide
  constructor <;>
    simp only [isPointInRing, isPointInRingStrictBetween, triangleVertexRing,
      List.length_cons, List.length_nil, hr, List.foldl_cons, List.foldl_nil] <;>
    norm_num

/-- C5, amended: the inside flag is toggled exactly for the edges where
the point's latitude lies in the half-open band — at least the lower
endpoint latitude and strictly below the higher — and the point's
longitude is less than the edge's longitude at that latitude. -/
theorem c5_ray_cast_half_open_band (point : Coord) (ring : Ring) :
    isPointInRing point ring = isPointInRingHalfOpenBand point ring := by
  unfold isPointInRing isPointInRingHalfOpenBand
  apply List.foldl_ext
  intro acc i _
  simp only [band_eq]

/-- Witness for C6 at a concrete input. -/
theorem c6_one_registration_per_level_witness :
    ((((buildSearchIndexMap [featParP]).filter
          (fun e => decide (e.2.level = Level.Province))).map
        (fun e => e.2.indices.count 0)).sum =
      if trimStr (levelName featParP .Province) = [] then 0 else 1) ∧
    (∀ (p : List (Str × Str)) (key : Str),
      assocFind p key = none ∨ assocFind p key = some [] → getProp p key = unknownStr) :=
  c6_one_registration_per_level [featParP] 0 featParP rfl .Province

/-! ### The ray-cast parity argument

`isPointInRing` toggles a flag; its value is the parity of the number of
crossing edges.  The cyclic structure of the edge list (each vertex
belongs to exactly two edges) makes the number of edges whose endpoints
straddle any horizontal line even — the key fact behind the
bounding-box soundness of the exact containment test. -/

/-- A fold of conditional toggles computes the parity of the number of
toggling elements. -/
theorem foldl_toggle (l : List ℕ) (cond : ℕ → Bool) (b : Bool) :
    l.foldl (fun acc i => if cond i then !acc else acc) b =
      (if (l.countP cond) % 2 = 1 then !b else b) := by
  induction l generalizing b with
  | nil => simp
  | cons x xs ih =>
    rw [List.foldl_cons, ih, List.countP_cons]
    by_cases hx : cond x = true
    · simp only [hx, eq_self_iff_true, if_true]
      rcases Nat.even_or_odd (xs.countP cond) with he | ho
      · have h1 : xs.countP cond % 2 = 0 := Nat.even_iff.mp he
        rw [if_neg (by omega), if_pos (by omega)]
      · have h1 : xs.countP cond % 2 = 1 := Nat.odd_iff.mp ho
        rw [if_pos (by omega), if_neg (by omega), Bool.not_not]
    · simp [hx]

/-- The edge-crossing condition tested by `isPointInRing` at edge `i`
(`j = i - 1` wrapping, written out). -/
def crossCond (point : Coord) (ring : Ring) (i : ℕ) : Bool :=
  (decide ((ring.getD i (0, 0)).2 > point.2) !=
    decide ((ring.getD (if i = 0 then ring.length - 1 else i - 1) (0, 0)).2 > point.2)) &&
  decide (point.1 <
    ((ring.getD (if i = 0 then ring.length - 1 else i - 1) (0, 0)).1 -
        (ring.getD i (0, 0)).1) *
      (point.2 - (ring.getD i (0, 0)).2) /
      ((ring.getD (if i = 0 then ring.length - 1 else i - 1) (0, 0)).2 -
        (ring.getD i (0, 0)).2) +
    (ring.getD i (0, 0)).1)

theorem isPointInRing_eq_parity (point : Coord) (ring : Ring) :
    isPointInRing point ring =
      decide (((List.range ring.length).countP (crossCond point ring)) % 2 = 1) := by
  have h : isPointInRing point ring =
      (List.range ring.length).foldl
        (fun acc i => if crossCond point ring i then !acc else acc) false := rfl
  rw [h, foldl_toggle]
  by_cases hp : ((List.range ring.length).countP (crossCond point ring)) % 2 = 1 <;>
    simp [hp]

theorem countP_range_eq_sum (n : ℕ) (p : ℕ → Bool) :
    (List.range n).countP p = ∑ i ∈ Finset.range n, (if p i then 1 else 0) := by
  induction n with
  | zero => rfl
  | succ n ih =>
    rw [List.range_succ, List.countP_append, Finset.sum_range_succ, ih]
    simp [List.countP_cons]

theorem sum_range_comp_pred (n : ℕ) (g : ℕ → ZMod 2) (hn : 1 ≤ n) :
    ∑ i ∈ Finset.range n, g (if i = 0 then n - 1 else i - 1) =
      ∑ i ∈ Finset.range n, g i := by
  apply Finset.sum_nbij' (fun i => if i = 0 then n - 1 else i - 1)
    (fun j => if j = n - 1 then 0 else j + 1) <;>
    intro a ha <;> simp only [Finset.mem_range] at ha ⊢ <;>
    split_ifs <;> first | rfl | omega | simp_all

/-- In a cyclic sequence of booleans, the number of adjacent unequal
pairs is even. -/
theorem countP_cyclic_diff_even (n : ℕ) (b : ℕ → Bool) :
    ((List.range n).countP
      (fun i => b i != b (if i = 0 then n - 1 else i - 1))) % 2 = 0 := by
  rcases Nat.eq_zero_or_pos n with hn | hn
  · subst hn; rfl
  set g : ℕ → ZMod 2 := fun i => if b i then 1 else 0 with hg
  have hcast : (((List.range n).countP
      (fun i => b i != b (if i = 0 then n - 1 else i - 1)) : ℕ) : ZMod 2) = 0 := by
    rw [countP_range_eq_sum]
    push_cast
    have hpt : ∀ i,
        ((if (b i != b (if i = 0 then n - 1 else i - 1)) = true then (1 : ZMod 2) else 0)) =
          g i + g (if i = 0 then n - 1 else i - 1) := by
      intro i
      rw [hg]
      cases hbi : b i <;> cases hbj : b (if i = 0 then n - 1 else i - 1) <;>
        simp [hbi, hbj] <;> decide
    calc ∑ i ∈ Finset.range n,
          (if (b i != b (if i = 0 then n - 1 else i - 1)) = true then (1 : ZMod 2) else 0)
        = ∑ i ∈ Finset.range n, (g i + g (if i = 0 then n - 1 else i - 1)) := by
          exact Finset.sum_congr rfl (fun i _ => hpt i)
      _ = ∑ i ∈ Finset.range n, g i + ∑ i ∈ Finset.range n, g (if i = 0 then n - 1 else i - 1) := by
          rw [Finset.sum_add_distrib]
      _ = ∑ i ∈ Finset.range n, g i + ∑ i ∈ Finset.range n, g i := by
          rw [sum_range_comp_pred n g hn]
      _ = 2 * ∑ i ∈ Finset.range n, g i := by ring
      _ = 0 := by
          have h2 : (2 : ZMod 2) = 0 := by decide
          rw [h2, zero_mul]
  have hdvd : 2 ∣ (List.range n).countP
      (fun i => b i != b (if i = 0 then n - 1 else i - 1)) :=
    (ZMod.natCast_zmod_eq_zero_iff_dvd _ 2).mp hcast
  omega

/-- The crossing intersection abscissa lies between the edge's endpoint
abscissas whenever the endpoints straddle the horizontal line. -/
theorem xInt_bounds (p a b : Coord)
    (h : (decide (a.2 > p.2) != decide (b.2 > p.2)) = true) :
    min a.1 b.1 ≤ (b.1 - a.1) * (p.2 - a.2) / (b.2 - a.2) + a.1 ∧
      (b.1 - a.1) * (p.2 - a.2) / (b.2 - a.2) + a.1 ≤ max a.1 b.1 := by
  have hcases : (a.2 ≤ p.2 ∧ p.2 < b.2) ∨ (b.2 ≤ p.2 ∧ p.2 < a.2) := by
    by_cases h1 : a.2 > p.2 <;> by_cases h2 : b.2 > p.2
    · simp [h1, h2] at h
    · exact Or.inr ⟨by linarith, h1⟩
    · exact Or.inl ⟨by linarith, h2⟩
    · simp [h1, h2] at h
  have hne : b.2 - a.2 ≠ 0 := by
    rcases hcases with ⟨h1, h2⟩ | ⟨h1, h2⟩ <;> intro hz <;> linarith [sub_eq_zero.mp hz]
  set t := (p.2 - a.2) / (b.2 - a.2) with ht
  have ht01 : 0 ≤ t ∧ t ≤ 1 := by
    rcases hcases with ⟨h1, h2⟩ | ⟨h1, h2⟩
    · have hd : 0 < b.2 - a.2 := by linarith
      constructor
      · exact div_nonneg (by linarith) (le_of_lt hd)
      · rw [div_le_one hd]; linarith
    · have hd : b.2 - a.2 < 0 := by linarith
      constructor
      · rw [div_nonneg_iff]
        exact Or.inr ⟨by linarith, by linarith⟩
      · rw [div_le_one_of_neg hd]; linarith
  have hx : (b.1 - a.1) * (p.2 - a.2) / (b.2 - a.2) + a.1 = a.1 + (b.1 - a.1) * t := by
    rw [ht]; field_simp; ring
  rw [hx]
  rcases le_total a.1 b.1 with hab | hab
  · rw [min_eq_left hab, max_eq_right hab]
    constructor <;> nlinarith [ht01.1, ht01.2]
  · rw [min_eq_right hab, max_eq_left hab]
    constructor <;> nlinarith [ht01.1, ht01.2]

theorem getD_mem_of_lt {α : Type} (l : List α) (i : ℕ) (d : α) (h : i < l.length) :
    l.getD i d ∈ l := by
  rw [List.getD_eq_getElem?_getD, List.getElem?_eq_getElem h]
  exact List.getElem_mem h

/-- If a point is reported inside a ring by the ray cast, it lies inside
any bounding box covering all ring coordinates — left edge inclusive,
right edge exclusive, bottom inclusive, top exclusive. -/
theorem inRing_bbox (p : Coord) (ring : Ring) (B : BBox)
    (hB : ∀ c ∈ ring, B.west ≤ c.1 ∧ c.1 ≤ B.east ∧ B.south ≤ c.2 ∧ c.2 ≤ B.north)
    (h : isPointInRing p ring = true) :
    B.west ≤ p.1 ∧ p.1 < B.east ∧ B.south ≤ p.2 ∧ p.2 < B.north := by
  rw [isPointInRing_eq_parity] at h
  rw [decide_eq_true_eq] at h
  have hpos : 0 < (List.range ring.length).countP (crossCond p ring) := by
    by_contra hz
    push_neg at hz
    interval_cases hcnt : (List.range ring.length).countP (crossCond p ring)
    simp at h
  obtain ⟨i, hi, hci⟩ := List.countP_pos.mp hpos
  rw [List.mem_range] at hi
  unfold crossCond at hci
  simp only [Bool.and_eq_true, decide_eq_true_eq] at hci
  set j := if i = 0 then ring.length - 1 else i - 1 with hj
  have hjlt : j < ring.length := by
    rw [hj]; split_ifs <;> omega
  have hmi : ring.getD i (0, 0) ∈ ring := getD_mem_of_lt ring i (0, 0) hi
  have hmj : ring.getD j (0, 0) ∈ ring := getD_mem_of_lt ring j (0, 0) hjlt
  obtain ⟨hWi, hEi, hSi, hNi⟩ := hB _ hmi
  obtain ⟨hWj, hEj, hSj, hNj⟩ := hB _ hmj
  obtain ⟨hstraddle, hxlt⟩ := hci
  have hxb := xInt_bounds p (ring.getD i (0, 0)) (ring.getD j (0, 0)) hstraddle
  have hyc : ((ring.getD i (0, 0)).2 ≤ p.2 ∧ p.2 < (ring.getD j (0, 0)).2) ∨
      ((ring.getD j (0, 0)).2 ≤ p.2 ∧ p.2 < (ring.getD i (0, 0)).2) := by
    by_cases h1 : (ring.getD i (0, 0)).2 > p.2 <;>
      by_cases h2 : (ring.getD j (0, 0)).2 > p.2
    · rw [decide_eq_true h1, decide_eq_true h2] at hstraddle
      exact absurd hstraddle (by decide)
    · exact Or.inr ⟨by linarith, h1⟩
    · exact Or.inl ⟨by linarith, h2⟩
    · rw [decide_eq_false h1, decide_eq_false h2] at hstraddle
      exact absurd hstraddle (by decide)
  refine ⟨?_, ?_, ?_, ?_⟩
  · by_contra hW
    push_neg at hW
    have hcong : ∀ i' ∈ List.range ring.length, crossCond p ring i' =
        (decide ((ring.getD i' (0, 0)).2 > p.2) !=
          decide ((ring.getD (if i' = 0 then ring.length - 1 else i' - 1) (0, 0)).2 > p.2)) := by
      intro i' hi'
      rw [List.mem_range] at hi'
      unfold crossCond
      set j' := if i' = 0 then ring.length - 1 else i' - 1 with hj'
      have hj'lt : j' < ring.length := by rw [hj']; split_ifs <;> omega
      cases hs : (decide ((ring.getD i' (0, 0)).2 > p.2) !=
          decide ((ring.getD j' (0, 0)).2 > p.2)) with
      | false => rfl
      | true =>
        rw [Bool.true_and, decide_eq_true_eq]
        have hxb' := xInt_bounds p (ring.getD i' (0, 0)) (ring.getD j' (0, 0)) hs
        obtain ⟨hWi', -, -, -⟩ := hB _ (getD_mem_of_lt ring i' (0, 0) hi')
        obtain ⟨hWj', -, -, -⟩ := hB _ (getD_mem_of_lt ring j' (0, 0) hj'lt)
        have hmin : B.west ≤ min (ring.getD i' (0, 0)).1 (ring.getD j' (0, 0)).1 :=
          le_min hWi' hWj'
      -- the `p.1 < B.west` assumption makes the abscissa condition automatic
        linarith [hxb'.1]
    rw [List.countP_congr (fun x hx => by rw [hcong x hx])] at h
    rw [countP_cyclic_diff_even ring.length
      (fun k => decide ((ring.getD k (0, 0)).2 > p.2))] at h
    exact absurd h (by omega)
  · have hmax : max (ring.getD i (0, 0)).1 (ring.getD j (0, 0)).1 ≤ B.east :=
      max_le hEi hEj
    linarith [hxb.2]
  · rcases hyc with ⟨h1, -⟩ | ⟨h1, -⟩ <;> linarith
  · rcases hyc with ⟨-, h2⟩ | ⟨-, h2⟩ <;> linarith

/-- `inBB c b`: the coordinate lies inside the box (closed sides). -/
def inBB (b : BBox) (c : Coord) : Prop :=
  b.west ≤ c.1 ∧ c.1 ≤ b.east ∧ b.south ≤ c.2 ∧ c.2 ≤ b.north

theorem bboxFold_spec (cs : List Coord) (b0 : BBox) :
    let bf := cs.foldl
      (fun b d => ⟨min b.south d.2, max b.north d.2, min b.west d.1, max b.east d.1⟩) b0
    (bf.west ≤ b0.west ∧ b0.east ≤ bf.east ∧ bf.south ≤ b0.south ∧ b0.north ≤ bf.north) ∧
    ∀ c ∈ cs, inBB bf c := by
  induction cs generalizing b0 with
  | nil => exact ⟨⟨le_refl _, le_refl _, le_refl _, le_refl _⟩, by simp⟩
  | cons c cs ih =>
    simp only [List.foldl_cons]
    obtain ⟨⟨hw, he, hs, hn⟩, hall⟩ :=
      ih ⟨min b0.south c.2, max b0.north c.2, min b0.west c.1, max b0.east c.1⟩
    refine ⟨⟨?_, ?_, ?_, ?_⟩, ?_⟩
    · exact le_trans hw (min_le_left _ _)
    · exact le_trans (le_max_left _ _) he
    · exact le_trans hs (min_le_left _ _)
    · exact le_trans (le_max_left _ _) hn
    · intro d hd
      rcases List.mem_cons.mp hd with hd | hd
      · subst hd
        refine ⟨le_trans hw (min_le_right _ _), le_trans (le_max_right _ _) he,
          le_trans hs (min_le_right _ _), le_trans (le_max_right _ _) hn⟩
      · exact hall d hd

theorem bboxOfCoords_bounds (l : List Coord) (b : BBox) (h : bboxOfCoords l = some b) :
    ∀ c ∈ l, inBB b c := by
  cases l with
  | nil => exact absurd h (by simp [bboxOfCoords])
  | cons c0 cs =>
    simp only [bboxOfCoords, Option.some.injEq] at h
    subst h
    intro c hc
    obtain ⟨⟨hw, he, hs, hn⟩, hall⟩ := bboxFold_spec cs ⟨c0.2, c0.2, c0.1, c0.1⟩
    rcases List.mem_cons.mp hc with hc | hc
    · subst hc
      exact ⟨hw, he, hs, hn⟩
    · exact hall c hc

/-- Containment of a point in a feature forces the feature's bounds to
exist and to contain the point, with room to the east and to the north. -/
theorem featureContains_bbox (p : Coord) (f : Feature)
    (h : featureContains p f = true) :
    ∃ b, featureBBox f = some b ∧
      b.west ≤ p.1 ∧ p.1 < b.east ∧ b.south ≤ p.2 ∧ p.2 < b.north := by
  have hext : ∃ ext : Ring, isPointInRing p ext = true ∧
      ∀ c ∈ ext, c ∈ geomCoords f.geometry := by
    unfold featureContains at h
    cases hg : f.geometry with
    | polygon coords =>
      rw [hg] at h
      cases coords with
      | nil => exact absurd h (by simp [isPointInPolygonCoords])
      | cons ext holes =>
        simp only [isPointInPolygonCoords, Bool.and_eq_true] at h
        refine ⟨ext, h.1, ?_⟩
        intro c hc
        simp only [geomCoords, List.mem_flatten]
        exact ⟨ext, List.mem_cons_self _ _, hc⟩
    | multiPolygon polys =>
      rw [hg] at h
      obtain ⟨poly, hpoly, hin⟩ := List.any_eq_true.mp h
      cases hpc : poly with
      | nil => rw [hpc] at hin; exact absurd hin (by simp [isPointInPolygonCoords])
      | cons ext holes =>
        rw [hpc] at hin
        simp only [isPointInPolygonCoords, Bool.and_eq_true] at hin
        refine ⟨ext, hin.1, ?_⟩
        intro c hc
        simp only [geomCoords, List.mem_flatten]
        refine ⟨poly.flatten, List.mem_map.mpr ⟨poly, hpoly, rfl⟩, ?_⟩
        rw [hpc]
        simp only [List.flatten_cons, List.mem_append]
        exact Or.inl hc
    | otherGeom => rw [hg] at h; exact absurd h (by simp)
  obtain ⟨ext, hin, hsub⟩ := hext
  have hne : geomCoords f.geometry ≠ [] := by
    intro hnil
    have hlen : 0 < ext.length := by
      by_contra hz
      push_neg at hz
      have hextnil : ext = [] := List.length_eq_zero.mp (Nat.le_zero.mp hz)
      have hfalse : isPointInRing p ([] : Ring) = false := rfl
      rw [hextnil, hfalse] at hin
      exact Bool.noConfusion hin
    obtain ⟨c0, hc0⟩ := List.exists_mem_of_length_pos hlen
    have := hsub c0 hc0
    rw [hnil] at this
    exact absurd this (List.not_mem_nil c0)
  have hbs : ∃ b, featureBBox f = some b := by
    unfold featureBBox
    cases hgc : geomCoords f.geometry with
    | nil => exact absurd hgc hne
    | cons c0 cs => exact ⟨_, rfl⟩
  obtain ⟨b, hb⟩ := hbs
  have hcov : ∀ c ∈ ext, inBB b c := by
    intro c hc
    exact bboxOfCoords_bounds _ b hb c (hsub c hc)
  have := inRing_bbox p ext
    ⟨b.south, b.north, b.west, b.east⟩
    (fun c hc => by
      obtain ⟨h1, h2, h3, h4⟩ := hcov c hc
      exact ⟨h1, h2, h3, h4⟩) hin
  exact ⟨b, hb, this.1, this.2.1, this.2.2.1, this.2.2.2⟩

/-- `b` is contained in `o` componentwise. -/
def bboxSub (b o : BBox) : Prop :=
  o.west ≤ b.west ∧ b.east ≤ o.east ∧ o.south ≤ b.south ∧ b.north ≤ o.north

theorem bboxSub_refl (b : BBox) : bboxSub b b :=
  ⟨le_refl _, le_refl _, le_refl _, le_refl _⟩

theorem bboxSub_merge_left (a b : BBox) : bboxSub a (bboxMerge a b) :=
  ⟨min_le_left _ _, le_max_left _ _, min_le_left _ _, le_max_left _ _⟩

theorem bboxSub_merge_right (a b : BBox) : bboxSub b (bboxMerge a b) :=
  ⟨min_le_right _ _, le_max_right _ _, min_le_right _ _, le_max_right _ _⟩

theorem bboxSub_trans (a b c : BBox) (h1 : bboxSub a b) (h2 : bboxSub b c) : bboxSub a c :=
  ⟨le_trans h2.1 h1.1, le_trans h1.2.1 h2.2.1, le_trans h2.2.2.1 h1.2.2.1,
    le_trans h1.2.2.2 h2.2.2.2⟩

theorem overallBBox_fold_spec (l : List Feature) (acc : Option BBox) :
    let res := l.foldl
      (fun acc f =>
        match featureBBox f with
        | none => acc
        | some b => match acc with
          | none => some b
          | some a => some (bboxMerge a b))
      acc
    (∀ a, acc = some a → ∃ r, res = some r ∧ bboxSub a r) ∧
    (∀ f ∈ l, ∀ b, featureBBox f = some b → ∃ r, res = some r ∧ bboxSub b r) := by
  induction l generalizing acc with
  | nil =>
    refine ⟨fun a ha => ⟨a, ha, bboxSub_refl a⟩, ?_⟩
    intro f hf
    exact absurd hf (List.not_mem_nil f)
  | cons g gs ih =>
    simp only [List.foldl_cons]
    cases hg : featureBBox g with
    | none =>
      obtain ⟨ih1, ih2⟩ := ih acc
      refine ⟨ih1, ?_⟩
      intro f hf b hb
      rcases List.mem_cons.mp hf with hf | hf
      · subst hf; rw [hg] at hb; exact Option.noConfusion hb
      · exact ih2 f hf b hb
    | some bg =>
      cases acc with
      | none =>
        obtain ⟨ih1, ih2⟩ := ih (some bg)
        refine ⟨fun a ha => Option.noConfusion ha, ?_⟩
        intro f hf b hb
        rcases List.mem_cons.mp hf with hf | hf
        · subst hf
          rw [hg] at hb
          have hbg : bg = b := Option.some.inj hb
          subst hbg
          exact ih1 bg rfl
        · exact ih2 f hf b hb
      | some a0 =>
        obtain ⟨ih1, ih2⟩ := ih (some (bboxMerge a0 bg))
        refine ⟨?_, ?_⟩
        · intro a ha
          have ha0 : a0 = a := Option.some.inj ha
          subst ha0
          obtain ⟨r, hr, hsub⟩ := ih1 (bboxMerge a0 bg) rfl
          exact ⟨r, hr, bboxSub_trans _ _ _ (bboxSub_merge_left a0 bg) hsub⟩
        · intro f hf b hb
          rcases List.mem_cons.mp hf with hf | hf
          · subst hf
            rw [hg] at hb
            have hbg : bg = b := Option.some.inj hb
            subst hbg
            obtain ⟨r, hr, hsub⟩ := ih1 (bboxMerge a0 bg) rfl
            exact ⟨r, hr, bboxSub_trans _ _ _ (bboxSub_merge_right a0 bg) hsub⟩
          · exact ih2 f hf b hb

theorem overallBBox_covers (features : List Feature) (f : Feature) (b : BBox)
    (hf : f ∈ features) (hb : featureBBox f = some b) :
    ∃ o, overallBBox features = some o ∧ bboxSub b o := by
  have := (overallBBox_fold_spec features none).2 f hf b hb
  exact this

theorem mem_intRange (a b x : ℤ) : x ∈ intRange a b ↔ a ≤ x ∧ x ≤ b := by
  simp only [intRange, List.mem_map, List.mem_range]
  constructor
  · rintro ⟨k, hk, rfl⟩
    omega
  · rintro ⟨h1, h2⟩
    exact ⟨(x - a).toNat, by omega, by omega⟩

/-- One interval of the floor/ceil registration arithmetic: with a
positive cell size, a point inside the feature's extent (with room at
the top) selects a clamped cell index inside the feature's registered
index range. -/
theorem clamped_floor_in_range (gs : ℕ) (hgs : 1 ≤ gs) (oLo oHi bLo bHi q : ℚ)
    (hoLo : oLo ≤ bLo) (hoHi : bHi ≤ oHi)
    (hbLo : bLo ≤ q) (hbHi : q ≤ bHi) (hstrict : bLo < oHi)
    (hsize : 0 < (oHi - oLo) / (gs : ℚ)) :
    max 0 (min ((gs : ℤ) - 1) (Int.floor ((q - oLo) / ((oHi - oLo) / (gs : ℚ))))) ∈
      intRange
        (max 0 (Int.floor ((bLo - oLo) / ((oHi - oLo) / (gs : ℚ)))))
        (min ((gs : ℤ) - 1) (Int.ceil ((bHi - oLo) / ((oHi - oLo) / (gs : ℚ))))) := by
  set H := (oHi - oLo) / (gs : ℚ) with hH
  set row := Int.floor ((q - oLo) / H) with hrow
  set lo := Int.floor ((bLo - oLo) / H) with hlo
  set hi := Int.ceil ((bHi - oLo) / H) with hhi
  rw [mem_intRange]
  have hrow0 : 0 ≤ row := by
    rw [hrow]
    apply Int.le_floor.mpr
    push_cast
    exact div_nonneg (by linarith) (le_of_lt hsize)
  have hlorow : lo ≤ row := by
    rw [hlo, hrow]
    exact Int.floor_le_floor ((div_le_div_right hsize).mpr (by linarith))
  have hrowhi : row ≤ hi := by
    rw [hrow, hhi]
    have h1 : ((q - oLo) / H) ≤ ((bHi - oLo) / H) :=
      (div_le_div_right hsize).mpr (by linarith)
    have h2 : (row : ℚ) ≤ (q - oLo) / H := by rw [hrow]; exact Int.floor_le _
    have h3 : ((bHi - oLo) / H) ≤ (hi : ℚ) := by rw [hhi]; exact Int.le_ceil _
    exact_mod_cast le_trans h2 (le_trans h1 h3)
  have hhi0 : 0 ≤ hi := le_trans hrow0 hrowhi
  have hlogs : lo ≤ (gs : ℤ) - 1 := by
    rw [hlo]
    have h1 : (bLo - oLo) / H < gs := by
      rw [div_lt_iff hsize]
      have hgsq : (0 : ℚ) < (gs : ℚ) := by exact_mod_cast hgs
      have hH2 : (gs : ℚ) * H = oHi - oLo := by
        rw [hH]
        field_simp
      linarith [hH2, hstrict]
    have h2 : Int.floor ((bLo - oLo) / H) < (gs : ℤ) :=
      Int.floor_lt.mpr (by push_cast; exact h1)
    omega
  constructor
  · omega
  · omega

/-- The query's clamped grid key is among the keys a feature's bounds
register under, whenever the point lies in the feature's bounds (with
strict room to the east and north) and the bounds lie within the
overall bounds. -/
theorem gridKey_mem_cellKeys (gridSize : ℕ) (hgs : 1 ≤ gridSize) (o b : BBox) (p : Coord)
    (hsub : bboxSub b o)
    (hpw : b.west ≤ p.1) (hpe : p.1 < b.east) (hps : b.south ≤ p.2) (hpn : p.2 < b.north) :
    (max 0 (min ((gridSize : ℤ) - 1)
        (Int.floor ((p.2 - o.south) / ((o.north - o.south) / (gridSize : ℚ)))))) *
        (gridSize : ℤ) +
      (max 0 (min ((gridSize : ℤ) - 1)
        (Int.floor ((p.1 - o.west) / ((o.east - o.west) / (gridSize : ℚ)))))) ∈
      cellKeysOf gridSize o ((o.north - o.south) / (gridSize : ℚ))
        ((o.east - o.west) / (gridSize : ℚ)) b := by
  obtain ⟨how, hoe, hos, hon⟩ := hsub
  have hgsq : (0 : ℚ) < (gridSize : ℚ) := by exact_mod_cast hgs
  have hsizeH : 0 < (o.north - o.south) / (gridSize : ℚ) := by
    apply div_pos
    · linarith
    · exact hgsq
  have hsizeW : 0 < (o.east - o.west) / (gridSize : ℚ) := by
    apply div_pos
    · linarith
    · exact hgsq
  unfold cellKeysOf
  rw [List.mem_flatMap]
  refine ⟨_, clamped_floor_in_range gridSize hgs o.south o.north b.south b.north p.2
      hos hon hps (le_of_lt hpn) (by linarith) hsizeH, ?_⟩
  rw [List.mem_map]
  exact ⟨_, clamped_floor_in_range gridSize hgs o.west o.east b.west b.east p.1
      how hoe hpw (le_of_lt hpe) (by linarith) hsizeW, rfl⟩

theorem enumFrom_pairwise_fst (l : List Feature) (n : ℕ) :
    (l.enumFrom n).Pairwise (fun a b => a.1 < b.1) := by
  induction l generalizing n with
  | nil => exact List.Pairwise.nil
  | cons a as ih =>
    refine List.Pairwise.cons ?_ (ih (n + 1))
    rintro ⟨i, x⟩ hx
    have h := List.mem_enumFrom hx
    show n < i
    omega

/-- Index `i` is in the bucket for key `k` exactly when feature `i` has
bounds registered under `k`. -/
theorem mem_gridLookup (features : List Feature) (gs : ℕ) (o : BBox) (cl cg : ℚ)
    (k : ℤ) (i : ℕ) :
    i ∈ gridLookup features gs o cl cg k ↔
      ∃ f b, features.get? i = some f ∧ featureBBox f = some b ∧
        k ∈ cellKeysOf gs o cl cg b := by
  unfold gridLookup
  rw [List.mem_filterMap]
  constructor
  · rintro ⟨⟨j, f⟩, hmem, hf⟩
    rw [List.mem_enum_iff_getElem?] at hmem
    cases hb : featureBBox f with
    | none =>
      rw [hb] at hf
      exact Option.noConfusion hf
    | some b =>
      rw [hb] at hf
      have hf2 : (if k ∈ cellKeysOf gs o cl cg b then some j else none) = some i := hf
      by_cases hk : k ∈ cellKeysOf gs o cl cg b
      · rw [if_pos hk] at hf2
        have hji : j = i := Option.some.inj hf2
        subst hji
        refine ⟨f, b, ?_, hb, hk⟩
        rw [List.get?_eq_getElem?]
        exact hmem
      · rw [if_neg hk] at hf2
        exact Option.noConfusion hf2
  · rintro ⟨f, b, hget, hb, hk⟩
    refine ⟨(i, f), ?_, ?_⟩
    · rw [List.mem_enum_iff_getElem?, ← List.get?_eq_getElem?]
      exact hget
    · show (match featureBBox f with
        | none => none
        | some b => if k ∈ cellKeysOf gs o cl cg b then some i else none) = some i
      rw [hb]
      exact if_pos hk

/-- The bucket lists indices in strictly increasing order (pushes happen
in feature order). -/
theorem gridLookup_sorted (features : List Feature) (gs : ℕ) (o : BBox) (cl cg : ℚ)
    (k : ℤ) :
    (gridLookup features gs o cl cg k).Pairwise (fun a b => a < b) := by
  unfold gridLookup
  rw [List.pairwise_filterMap]
  have key : ∀ (e : ℕ × Feature) (x : ℕ),
      (match featureBBox e.2 with
        | none => none
        | some b => if k ∈ cellKeysOf gs o cl cg b then some e.1 else none) = some x →
      x = e.1 := by
    rintro ⟨j, f⟩ x h
    cases hb : featureBBox f with
    | none =>
      rw [hb] at h
      exact Option.noConfusion h
    | some b =>
      rw [hb] at h
      have h2 : (if k ∈ cellKeysOf gs o cl cg b then some j else none) = some x := h
      by_cases hk : k ∈ cellKeysOf gs o cl cg b
      · rw [if_pos hk] at h2
        exact (Option.some.inj h2).symm
      · rw [if_neg hk] at h2
        exact Option.noConfusion h2
  refine List.Pairwise.imp ?_ (enumFrom_pairwise_fst features 0)
  intro a b hab x hx y hy
  rw [Option.mem_def] at hx hy
  rw [key a x hx, key b y hy]
  exact hab

theorem find?_eq_some_sorted (cands : List ℕ) (p : ℕ → Bool) (i : ℕ)
    (hs : cands.Pairwise (fun a b => a < b)) (hm : i ∈ cands) (hp : p i = true)
    (hmin : ∀ j ∈ cands, j < i → p j = false) : cands.find? p = some i := by
  induction cands with
  | nil => exact absurd hm (List.not_mem_nil i)
  | cons c cs ih =>
    rw [List.pairwise_cons] at hs
    rw [List.find?_cons]
    cases hpc : p c with
    | true =>
      have hci : c = i := by
        rcases List.mem_cons.mp hm with h | h
        · exact h.symm
        · have := hmin c (List.mem_cons_self _ _) (hs.1 i h)
          rw [hpc] at this
          exact Bool.noConfusion this
      show some c = some i
      rw [hci]
    | false =>
      have him : i ∈ cs := by
        rcases List.mem_cons.mp hm with h | h
        · rw [h, hpc] at hp
          exact Bool.noConfusion hp
        · exact h
      exact ih hs.2 him (fun j hj hji => hmin j (List.mem_cons_of_mem _ hj) hji)

theorem find?_some_min (l : List Feature) (q : Feature → Bool) (f : Feature)
    (h : l.find? q = some f) :
    ∃ i, l.get? i = some f ∧ q f = true ∧
      ∀ j g, j < i → l.get? j = some g → q g = false := by
  induction l with
  | nil => exact absurd h (by simp)
  | cons a as ih =>
    rw [List.find?_cons] at h
    cases hqa : q a with
    | true =>
      rw [hqa] at h
      have haf : a = f := Option.some.inj h
      subst haf
      exact ⟨0, rfl, hqa, fun j g hj _ => absurd hj (Nat.not_lt_zero j)⟩
    | false =>
      rw [hqa] at h
      obtain ⟨i, hget, hq, hmin⟩ := ih h
      refine ⟨i + 1, hget, hq, ?_⟩
      intro j g hj hg
      cases j with
      | zero =>
        have hag : a = g := Option.some.inj hg
        rw [← hag]
        exact hqa
      | succ j1 => exact hmin j1 g (Nat.lt_of_succ_lt_succ hj) hg

/-- `getVillageAtLatLng` with its local `let`s expanded. -/
theorem getVillageAtLatLng_eq (features : List Feature) (latlng : ℚ × ℚ) :
    getVillageAtLatLng features latlng =
      match overallBBox features with
      | none => none
      | some o =>
        if latlng.1 < o.south ∨ latlng.1 > o.north ∨ latlng.2 < o.west ∨ latlng.2 > o.east
        then none
        else
          ((gridLookup features (gridSizeOf features.length) o
              ((o.north - o.south) / ((gridSizeOf features.length : ℕ) : ℚ))
              ((o.east - o.west) / ((gridSizeOf features.length : ℕ) : ℚ))
              ((max 0 (min ((gridSizeOf features.length : ℤ) - 1)
                  (Int.floor ((latlng.1 - o.south) /
                    ((o.north - o.south) / ((gridSizeOf features.length : ℕ) : ℚ)))))) *
                (gridSizeOf features.length : ℤ) +
                (max 0 (min ((gridSizeOf features.length : ℤ) - 1)
                  (Int.floor ((latlng.2 - o.west) /
                    ((o.east - o.west) / ((gridSizeOf features.length : ℕ) : ℚ)))))))).find?
            (fun i => match features.get? i with
              | none => false
              | some f => match featureBBox f with
                | none => false
                | some b =>
                  bboxContains b (latlng.2, latlng.1) &&
                    featureContains (latlng.2, latlng.1) f)).bind features.get? := rfl

theorem getVillage_eq_some (features : List Feature) (latlng : ℚ × ℚ) (o : BBox)
    (h : overallBBox features = some o) :
    getVillageAtLatLng features latlng =
      if latlng.1 < o.south ∨ latlng.1 > o.north ∨ latlng.2 < o.west ∨ latlng.2 > o.east
      then none
      else
        ((gridLookup features (gridSizeOf features.length) o
            ((o.north - o.south) / ((gridSizeOf features.length : ℕ) : ℚ))
            ((o.east - o.west) / ((gridSizeOf features.length : ℕ) : ℚ))
            ((max 0 (min ((gridSizeOf features.length : ℤ) - 1)
                (Int.floor ((latlng.1 - o.south) /
                  ((o.north - o.south) / ((gridSizeOf features.length : ℕ) : ℚ)))))) *
              (gridSizeOf features.length : ℤ) +
              (max 0 (min ((gridSizeOf features.length : ℤ) - 1)
                (Int.floor ((latlng.2 - o.west) /
                  ((o.east - o.west) / ((gridSizeOf features.length : ℕ) : ℚ)))))))).find?
          (fun i => match features.get? i with
            | none => false
            | some f => match featureBBox f with
              | none => false
              | some b =>
                bboxContains b (latlng.2, latlng.1) &&
                  featureContains (latlng.2, latlng.1) f)).bind features.get? := by
  rw [getVillageAtLatLng_eq, h]

theorem getVillage_eq_none (features : List Feature) (latlng : ℚ × ℚ)
    (h : overallBBox features = none) : getVillageAtLatLng features latlng = none := by
  rw [getVillageAtLatLng_eq, h]

theorem bind_find?_eq (cands : List ℕ) (p : ℕ → Bool) (features : List Feature)
    (f : Feature) (i : ℕ) (hfs : cands.find? p = some i)
    (hget : features.get? i = some f) :
    (cands.find? p).bind features.get? = some f := by
  rw [hfs]
  exact hget

/-- C1: for every feature sequence and query point, `getVillageAtLatLng`
returns the first feature in feature order whose geometry contains the
point (ray-cast polygon test with holes), and `none` when no feature
contains it.  The grid index, bounding-box quick-rejects and candidate
ordering are all transparent to the result. -/
theorem c1_first_containing_feature (features : List Feature) (latlng : ℚ × ℚ) :
    getVillageAtLatLng features latlng =
      features.find? (fun f => featureContains (latlng.2, latlng.1) f) := by
  cases hfind : features.find? (fun f => featureContains (latlng.2, latlng.1) f) with
  | none =>
    rw [List.find?_eq_none] at hfind
    have hpredall : ∀ i : ℕ, (match features.get? i with
        | none => false
        | some g => match featureBBox g with
          | none => false
          | some b => bboxContains b (latlng.2, latlng.1) &&
              featureContains (latlng.2, latlng.1) g) = false := by
      intro i
      cases hg : features.get? i with
      | none => rfl
      | some g =>
        show (match featureBBox g with
          | none => false
          | some b => bboxContains b (latlng.2, latlng.1) &&
              featureContains (latlng.2, latlng.1) g) = false
        cases hbg : featureBBox g with
        | none => rfl
        | some b =>
          show (bboxContains b (latlng.2, latlng.1) &&
            featureContains (latlng.2, latlng.1) g) = false
          have hng : featureContains (latlng.2, latlng.1) g = false := by
            cases hc : featureContains (latlng.2, latlng.1) g with
            | false => rfl
            | true => exact absurd hc (hfind g (List.get?_mem hg))
          rw [hng, Bool.and_false]
    cases ho : overallBBox features with
    | none => exact getVillage_eq_none features latlng ho
    | some o =>
      rw [getVillage_eq_some features latlng o ho]
      by_cases hrej : latlng.1 < o.south ∨ latlng.1 > o.north ∨
          latlng.2 < o.west ∨ latlng.2 > o.east
      · rw [if_pos hrej]
      · rw [if_neg hrej]
        have hfn : ∀ (cands : List ℕ),
            (cands.find? (fun i => match features.get? i with
              | none => false
              | some f => match featureBBox f with
                | none => false
                | some b => bboxContains b (latlng.2, latlng.1) &&
                    featureContains (latlng.2, latlng.1) f)) = none := by
          intro cands
          rw [List.find?_eq_none]
          intro x _ hcontra
          have h2 : (match features.get? x with
            | none => false
            | some g => match featureBBox g with
              | none => false
              | some b => bboxContains b (latlng.2, latlng.1) &&
                  featureContains (latlng.2, latlng.1) g) = true := hcontra
          rw [hpredall x] at h2
          exact Bool.noConfusion h2
        rw [hfn]
        rfl
  | some f =>
    obtain ⟨idx, hget, hqf, hmin⟩ := find?_some_min features
      (fun f => featureContains (latlng.2, latlng.1) f) f hfind
    have hq : featureContains (latlng.2, latlng.1) f = true := hqf
    obtain ⟨b, hbb, hbw, hbe, hbs, hbn⟩ :=
      featureContains_bbox (latlng.2, latlng.1) f hq
    obtain ⟨o, ho, hsub⟩ := overallBBox_covers features f b (List.get?_mem hget) hbb
    rw [getVillage_eq_some features latlng o ho]
    have hnrej : ¬(latlng.1 < o.south ∨ latlng.1 > o.north ∨
        latlng.2 < o.west ∨ latlng.2 > o.east) := by
      push_neg
      obtain ⟨how, hoe, hos, hon⟩ := hsub
      exact ⟨le_trans hos hbs, le_of_lt (lt_of_lt_of_le hbn hon),
        le_trans how hbw, le_of_lt (lt_of_lt_of_le hbe hoe)⟩
    rw [if_neg hnrej]
    have hgs : 1 ≤ gridSizeOf features.length :=
      le_trans (by norm_num) (Nat.le_max_left 30 _)
    have hpredi : (match features.get? idx with
        | none => false
        | some g => match featureBBox g with
          | none => false
          | some b2 => bboxContains b2 (latlng.2, latlng.1) &&
              featureContains (latlng.2, latlng.1) g) = true := by
      rw [hget]
      show (match featureBBox f with
        | none => false
        | some b2 => bboxContains b2 (latlng.2, latlng.1) &&
            featureContains (latlng.2, latlng.1) f) = true
      rw [hbb]
      show (bboxContains b (latlng.2, latlng.1) &&
        featureContains (latlng.2, latlng.1) f) = true
      rw [Bool.and_eq_true]
      refine ⟨?_, hq⟩
      simp only [bboxContains, Bool.and_eq_true, decide_eq_true_eq]
      exact ⟨⟨⟨hbw, le_of_lt hbe⟩, hbs⟩, le_of_lt hbn⟩
    have hminp : ∀ j : ℕ, j < idx → (match features.get? j with
        | none => false
        | some g => match featureBBox g with
          | none => false
          | some b2 => bboxContains b2 (latlng.2, latlng.1) &&
              featureContains (latlng.2, latlng.1) g) = false := by
      intro j hj
      cases hg : features.get? j with
      | none => rfl
      | some g =>
        show (match featureBBox g with
          | none => false
          | some b2 => bboxContains b2 (latlng.2, latlng.1) &&
              featureContains (latlng.2, latlng.1) g) = false
        cases hbg : featureBBox g with
        | none => rfl
        | some b2 =>
          show (bboxContains b2 (latlng.2, latlng.1) &&
            featureContains (latlng.2, latlng.1) g) = false
          have hng : featureContains (latlng.2, latlng.1) g = false :=
            hmin j g hj hg
          rw [hng, Bool.and_false]
    refine bind_find?_eq _ _ _ _ idx ?_ hget
    refine find?_eq_some_sorted _ _ idx (gridLookup_sorted _ _ _ _ _ _) ?_ hpredi
      (fun j _ hj => hminp j hj)
    refine (mem_gridLookup _ _ _ _ _ _ _).mpr ⟨f, b, hget, hbb, ?_⟩
    exact gridKey_mem_cellKeys (gridSizeOf features.length) hgs o b
      (latlng.2, latlng.1) hsub hbw hbe hbs hbn

/-! ### Digit runs: values read back by the scanners -/

/-- The value accumulated by `scanDigitsGo` over a digit run. -/
def digitsAcc (acc : ℕ) (l : Str) : ℕ := l.foldl (fun a c => a * 10 + digitVal c) acc

theorem digitChar_isDigit (n : ℕ) (h : n < 10) : (digitChar n).isDigit = true := by
  interval_cases n <;> decide

theorem digitVal_digitChar (n : ℕ) (h : n < 10) : digitVal (digitChar n) = n := by
  interval_cases n <;> decide

theorem digit_not_jsws (c : Char) (h : c.isDigit = true) : isJsWs c = false := by
  cases hw : isJsWs c
  · rfl
  · exfalso
    simp only [isJsWs, Bool.or_eq_true, decide_eq_true_eq] at hw
    rcases hw with ((((h1 | h1) | h1) | h1) | h1) | h1 <;>
      (rw [h1] at h; exact absurd h (by decide))

theorem digit_not_degSep (c : Char) (h : c.isDigit = true) : isDegSep c = false := by
  cases hw : isDegSep c
  · rfl
  · exfalso
    simp only [isDegSep, Bool.or_eq_true, decide_eq_true_eq] at hw
    rcases hw with h1 | h1
    · rw [h1] at h; exact absurd h (by decide)
    · rw [digit_not_jsws c h] at h1; exact Bool.noConfusion h1

theorem digit_not_minSep (c : Char) (h : c.isDigit = true) : isMinSep c = false := by
  cases hw : isMinSep c
  · rfl
  · exfalso
    simp only [isMinSep, Bool.or_eq_true, decide_eq_true_eq] at hw
    rcases hw with h1 | h1
    · rw [h1] at h; exact absurd h (by decide)
    · rw [digit_not_jsws c h] at h1; exact Bool.noConfusion h1

theorem digit_ne_char (c e : Char) (h : c.isDigit = true) (he : e.isDigit = false) :
    ¬(c = e) := by
  intro hc
  rw [hc, he] at h
  exact Bool.noConfusion h

theorem scanDigitsGo_append (ds rest : Str) (acc cnt : ℕ)
    (h : ∀ c ∈ ds, c.isDigit = true) :
    scanDigitsGo (ds ++ rest) acc cnt =
      scanDigitsGo rest (digitsAcc acc ds) (cnt + ds.length) := by
  induction ds generalizing acc cnt with
  | nil => simp [digitsAcc]
  | cons c cs ih =>
    rw [List.cons_append]
    have hc : c.isDigit = true := h c (List.mem_cons_self _ _)
    show (if c.isDigit then scanDigitsGo (cs ++ rest) (acc * 10 + digitVal c) (cnt + 1)
        else (acc, cnt, c :: (cs ++ rest))) =
      scanDigitsGo rest (digitsAcc acc (c :: cs)) (cnt + (c :: cs).length)
    rw [if_pos hc, ih (acc * 10 + digitVal c) (cnt + 1)
      (fun x hx => h x (List.mem_cons_of_mem _ hx))]
    have h1 : digitsAcc (acc * 10 + digitVal c) cs = digitsAcc acc (c :: cs) := by
      simp [digitsAcc]
    have h2 : cnt + 1 + cs.length = cnt + (c :: cs).length := by
      simp [List.length_cons]; omega
    rw [h1, h2]

theorem scanDigitsGo_stop (l : Str) (acc cnt : ℕ)
    (h : l = [] ∨ ∃ c cs, l = c :: cs ∧ c.isDigit = false) :
    scanDigitsGo l acc cnt = (acc, cnt, l) := by
  rcases h with rfl | ⟨c, cs, rfl, hc⟩
  · rfl
  · show (if c.isDigit then scanDigitsGo cs (acc * 10 + digitVal c) (cnt + 1)
        else (acc, cnt, c :: cs)) = (acc, cnt, c :: cs)
    rw [if_neg]
    rw [hc]
    exact Bool.false_ne_true

theorem scanDigits_append (ds rest : Str) (hne : ds ≠ [])
    (hd : ∀ c ∈ ds, c.isDigit = true)
    (hstop : rest = [] ∨ ∃ c cs, rest = c :: cs ∧ c.isDigit = false) :
    scanDigits (ds ++ rest) = some (digitsAcc 0 ds, ds.length, rest) := by
  cases ds with
  | nil => exact absurd rfl hne
  | cons c cs =>
    have hc : c.isDigit = true := hd c (List.mem_cons_self _ _)
    rw [List.cons_append]
    show (if c.isDigit then some (scanDigitsGo (c :: (cs ++ rest)) 0 0) else none) =
      some (digitsAcc 0 (c :: cs), (c :: cs).length, rest)
    rw [if_pos hc]
    rw [show (c :: (cs ++ rest)) = (c :: cs) ++ rest from rfl]
    rw [scanDigitsGo_append (c :: cs) rest 0 0 hd, scanDigitsGo_stop rest _ _ hstop]
    rw [Nat.zero_add]

theorem natDigitsAux_spec (fuel : ℕ) : ∀ n : ℕ, n < fuel →
    (∀ c ∈ natDigitsAux fuel n, c.isDigit = true) ∧
    natDigitsAux fuel n ≠ [] ∧
    ∀ acc, digitsAcc acc (natDigitsAux fuel n) =
      acc * 10 ^ (natDigitsAux fuel n).length + n := by
  induction fuel with
  | zero => intro n hn; omega
  | succ fuel ih =>
    intro n hn
    by_cases h10 : n < 10
    · rw [show natDigitsAux (fuel + 1) n = [digitChar n] from by
        show (if n < 10 then [digitChar n] else _) = _; rw [if_pos h10]]
      refine ⟨?_, by simp, ?_⟩
      · intro c hc
        rw [List.mem_singleton.mp hc]
        exact digitChar_isDigit n h10
      · intro acc
        simp [digitsAcc, digitVal_digitChar n h10]
    · have hlt : n / 10 < fuel := by omega
      obtain ⟨ihd, ihne, ihval⟩ := ih (n / 10) hlt
      rw [show natDigitsAux (fuel + 1) n =
          natDigitsAux fuel (n / 10) ++ [digitChar (n % 10)] from by
        show (if n < 10 then _ else natDigitsAux fuel (n / 10) ++ [digitChar (n % 10)]) = _
        rw [if_neg h10]]
      refine ⟨?_, by simp, ?_⟩
      · intro c hc
        rcases List.mem_append.mp hc with hc | hc
        · exact ihd c hc
        · rw [List.mem_singleton.mp hc]
          exact digitChar_isDigit _ (Nat.mod_lt _ (by norm_num))
      · intro acc
        have hstep : digitsAcc acc (natDigitsAux fuel (n / 10) ++ [digitChar (n % 10)]) =
            digitsAcc acc (natDigitsAux fuel (n / 10)) * 10 + digitVal (digitChar (n % 10)) := by
          simp [digitsAcc, List.foldl_append]
        rw [hstep, ihval acc, digitVal_digitChar _ (Nat.mod_lt _ (by norm_num)),
          List.length_append]
        calc (acc * 10 ^ (natDigitsAux fuel (n / 10)).length + n / 10) * 10 + n % 10
            = acc * 10 ^ ((natDigitsAux fuel (n / 10)).length + [digitChar (n % 10)].length) +
              (10 * (n / 10) + n % 10) := by
              simp [List.length_singleton]; ring
          _ = acc * 10 ^ ((natDigitsAux fuel (n / 10)).length + [digitChar (n % 10)].length) +
              n := by rw [Nat.div_add_mod]

theorem natDigits_spec (n : ℕ) :
    (∀ c ∈ natDigits n, c.isDigit = true) ∧ natDigits n ≠ [] ∧
      digitsAcc 0 (natDigits n) = n := by
  obtain ⟨hd, hne, hval⟩ := natDigitsAux_spec (n + 1) n (Nat.lt_succ_self n)
  refine ⟨hd, hne, ?_⟩
  show digitsAcc 0 (natDigitsAux (n + 1) n) = n
  rw [hval 0]
  simp

theorem pad2_spec (m : ℕ) :
    (∀ c ∈ pad2 m, c.isDigit = true) ∧ pad2 m ≠ [] ∧ digitsAcc 0 (pad2 m) = m := by
  obtain ⟨hd, hne, hval⟩ := natDigits_spec m
  unfold pad2
  by_cases h : m < 10
  · rw [if_pos h]
    refine ⟨?_, by simp, ?_⟩
    · intro c hc
      rcases List.mem_cons.mp hc with rfl | hc
      · decide
      · exact hd c hc
    · show digitsAcc (0 * 10 + digitVal '0') (natDigits m) = m
      rw [show (0 * 10 + digitVal '0') = 0 from by decide]
      exact hval
  · rw [if_neg h]
    exact ⟨hd, hne, hval⟩

theorem scanInt_append (ds rest : Str) (hne : ds ≠ [])
    (hd : ∀ c ∈ ds, c.isDigit = true)
    (hstop : rest = [] ∨ ∃ c cs, rest = c :: cs ∧ c.isDigit = false) :
    scanInt (ds ++ rest) = some ((digitsAcc 0 ds : ℤ), rest) := by
  cases ds with
  | nil => exact absurd rfl hne
  | cons c cs =>
    have hc : c.isDigit = true := hd c (List.mem_cons_self _ _)
    rw [List.cons_append]
    unfold scanInt
    split
    · rename_i rest2 heq
      exfalso
      have hcm : c = '-' := (List.cons.injEq _ _ _ _ ▸ heq).1
      rw [hcm] at hc
      exact absurd hc (by decide)
    · rw [show (c :: (cs ++ rest)) = (c :: cs) ++ rest from rfl,
        scanDigits_append (c :: cs) rest hne hd hstop]
      rfl

theorem dropWhile_cons_false (p : Char → Bool) (c : Char) (cs : Str) (h : p c = false) :
    (c :: cs).dropWhile p = c :: cs := by
  rw [List.dropWhile_cons, h]
  simp

theorem scanRun1_cons (p : Char → Bool) (c : Char) (cs : Str) (h : p c = true) :
    scanRun1 p (c :: cs) = some (cs.dropWhile p) := by
  show (if p c then some (cs.dropWhile p) else none) = some (cs.dropWhile p)
  rw [if_pos h]

theorem scanDecNum_render (a b : ℕ) (hb : b < 10) (rest : Str)
    (hstop : rest = [] ∨ ∃ c cs, rest = c :: cs ∧ c.isDigit = false) :
    scanDecNum (natDigits a ++ '.' :: digitChar b :: rest) =
      some ((a : ℚ) + (b : ℚ) / 10, rest) := by
  obtain ⟨hd, hne, hval⟩ := natDigits_spec a
  unfold scanDecNum
  rw [scanDigits_append (natDigits a) ('.' :: digitChar b :: rest) hne hd
    (Or.inr ⟨'.', _, rfl, by decide⟩)]
  show (if ('.' : Char) = '.' then
      some (((digitsAcc 0 (natDigits a) : ℕ) : ℚ) +
        ((scanDigitsGo (digitChar b :: rest) 0 0).1 : ℚ) /
          (10 : ℚ) ^ (scanDigitsGo (digitChar b :: rest) 0 0).2.1,
        (scanDigitsGo (digitChar b :: rest) 0 0).2.2)
    else some (((digitsAcc 0 (natDigits a) : ℕ) : ℚ), '.' :: digitChar b :: rest)) =
    some ((a : ℚ) + (b : ℚ) / 10, rest)
  rw [if_pos rfl]
  have hgo : scanDigitsGo (digitChar b :: rest) 0 0 = (b, 1, rest) := by
    rw [show (digitChar b :: rest) = [digitChar b] ++ rest from rfl,
      scanDigitsGo_append [digitChar b] rest 0 0
        (fun x hx => by rw [List.mem_singleton.mp hx]; exact digitChar_isDigit b hb),
      scanDigitsGo_stop rest _ _ hstop]
    show ((digitsAcc 0 [digitChar b], 0 + 1, rest) : ℕ × ℕ × Str) = (b, 1, rest)
    rw [show digitsAcc 0 [digitChar b] = digitVal (digitChar b) from by
      simp [digitsAcc], digitVal_digitChar b hb]
  rw [hgo, hval]
  norm_num

theorem scanHalf_eval (q : Bool) (l : Str) (deg : ℤ) (r1 r2 : Str) (minutes cnt : ℕ)
    (r3 r4 : Str) (sec : ℚ) (r5 : Str) (c : Char) (r7 : Str)
    (h1 : scanInt l = some (deg, r1))
    (h2 : scanRun1 isDegSep r1 = some r2)
    (h3 : scanDigits r2 = some (minutes, cnt, r3))
    (h4 : scanRun1 isMinSep r3 = some r4)
    (h5 : scanDecNum r4 = some (sec, r5))
    (h6 : (if q then r5.dropWhile isSecSep else r5) = c :: r7)
    (h7 : isDirChar c = true) :
    scanHalf q l = some (deg, minutes, sec, c, r7) := by
  unfold scanHalf
  rw [h1]
  show (match scanRun1 isDegSep r1 with
    | none => none
    | some r2 =>
      match scanDigits r2 with
      | none => none
      | some (minutes, _, r3) =>
        match scanRun1 isMinSep r3 with
        | none => none
        | some r4 =>
          match scanDecNum r4 with
          | none => none
          | some (sec, r5) =>
            match (if q then r5.dropWhile isSecSep else r5) with
            | c :: r7 => if isDirChar c then some (deg, minutes, sec, c, r7) else none
            | [] => none) = some (deg, minutes, sec, c, r7)
  rw [h2]
  show (match scanDigits r2 with
    | none => none
    | some (minutes, _, r3) =>
      match scanRun1 isMinSep r3 with
      | none => none
      | some r4 =>
        match scanDecNum r4 with
        | none => none
        | some (sec, r5) =>
          match (if q then r5.dropWhile isSecSep else r5) with
          | c :: r7 => if isDirChar c then some (deg, minutes, sec, c, r7) else none
          | [] => none) = some (deg, minutes, sec, c, r7)
  rw [h3]
  show (match scanRun1 isMinSep r3 with
    | none => none
    | some r4 =>
      match scanDecNum r4 with
      | none => none
      | some (sec, r5) =>
        match (if q then r5.dropWhile isSecSep else r5) with
        | c :: r7 => if isDirChar c then some (deg, minutes, sec, c, r7) else none
        | [] => none) = some (deg, minutes, sec, c, r7)
  rw [h4]
  show (match scanDecNum r4 with
    | none => none
    | some (sec, r5) =>
      match (if q then r5.dropWhile isSecSep else r5) with
      | c :: r7 => if isDirChar c then some (deg, minutes, sec, c, r7) else none
      | [] => none) = some (deg, minutes, sec, c, r7)
  rw [h5]
  show (match (if q then r5.dropWhile isSecSep else r5) with
    | c :: r7 => if isDirChar c then some (deg, minutes, sec, c, r7) else none
    | [] => none) = some (deg, minutes, sec, c, r7)
  rw [h6]
  show (if isDirChar c then some (deg, minutes, sec, c, r7) else none) =
    some (deg, minutes, sec, c, r7)
  rw [if_pos h7]

theorem dropWhile_digits (p : Char → Bool) (ds rest : Str) (hne : ds ≠ [])
    (hd : ∀ c ∈ ds, c.isDigit = true) (hp : ∀ c, c.isDigit = true → p c = false) :
    (ds ++ rest).dropWhile p = ds ++ rest := by
  cases ds with
  | nil => exact absurd rfl hne
  | cons c cs =>
    rw [List.cons_append]
    exact dropWhile_cons_false p c _ (hp c (hd c (List.mem_cons_self _ _)))

/-- The quoted DMS pattern accepts the rendered coordinate half
`D°MM'SS.S"x` (with `tail` following) and reads back its fields. -/
theorem scanHalf_render (d m s10 : ℕ) (dir : Char) (tail : Str)
    (hdir : isDirChar dir = true) (hdss : isSecSep dir = false) :
    scanHalf true (natDigits d ++ degSign :: (pad2 m ++ minuteSign ::
        (natDigits (s10 / 10) ++ '.' :: digitChar (s10 % 10) ::
          secondSign :: dir :: tail))) =
      some ((d : ℤ), m, (s10 : ℚ) / 10, dir, tail) := by
  obtain ⟨hdd, hdne, hdval⟩ := natDigits_spec d
  obtain ⟨hpd, hpne, hpval⟩ := pad2_spec m
  obtain ⟨hsd, hsne, hsval⟩ := natDigits_spec (s10 / 10)
  have h1 : scanInt (natDigits d ++ degSign :: (pad2 m ++ minuteSign ::
      (natDigits (s10 / 10) ++ '.' :: digitChar (s10 % 10) ::
        secondSign :: dir :: tail))) =
      some ((d : ℤ), degSign :: (pad2 m ++ minuteSign ::
        (natDigits (s10 / 10) ++ '.' :: digitChar (s10 % 10) ::
          secondSign :: dir :: tail))) := by
    rw [scanInt_append (natDigits d) _ hdne hdd (Or.inr ⟨degSign, _, rfl, by decide⟩),
      hdval]
  have h2 : scanRun1 isDegSep (degSign :: (pad2 m ++ minuteSign ::
      (natDigits (s10 / 10) ++ '.' :: digitChar (s10 % 10) ::
        secondSign :: dir :: tail))) =
      some (pad2 m ++ minuteSign :: (natDigits (s10 / 10) ++ '.' ::
        digitChar (s10 % 10) :: secondSign :: dir :: tail)) := by
    rw [scanRun1_cons isDegSep degSign _ (by decide),
      dropWhile_digits isDegSep (pad2 m) _ hpne hpd digit_not_degSep]
  have h3 : scanDigits (pad2 m ++ minuteSign :: (natDigits (s10 / 10) ++ '.' ::
      digitChar (s10 % 10) :: secondSign :: dir :: tail)) =
      some (m, (pad2 m).length, minuteSign :: (natDigits (s10 / 10) ++ '.' ::
        digitChar (s10 % 10) :: secondSign :: dir :: tail)) := by
    rw [scanDigits_append (pad2 m) _ hpne hpd (Or.inr ⟨minuteSign, _, rfl, by decide⟩),
      hpval]
  have h4 : scanRun1 isMinSep (minuteSign :: (natDigits (s10 / 10) ++ '.' ::
      digitChar (s10 % 10) :: secondSign :: dir :: tail)) =
      some (natDigits (s10 / 10) ++ '.' :: digitChar (s10 % 10) ::
        secondSign :: dir :: tail) := by
    rw [scanRun1_cons isMinSep minuteSign _ (by decide),
      dropWhile_digits isMinSep (natDigits (s10 / 10)) _ hsne hsd digit_not_minSep]
  have h5 : scanDecNum (natDigits (s10 / 10) ++ '.' :: digitChar (s10 % 10) ::
      secondSign :: dir :: tail) =
      some (((s10 / 10 : ℕ) : ℚ) + ((s10 % 10 : ℕ) : ℚ) / 10, secondSign :: dir :: tail) :=
    scanDecNum_render (s10 / 10) (s10 % 10) (Nat.mod_lt _ (by norm_num)) _
      (Or.inr ⟨secondSign, _, rfl, by decide⟩)
  have h6 : (if true then (secondSign :: dir :: tail).dropWhile isSecSep
      else secondSign :: dir :: tail) = dir :: tail := by
    rw [if_pos rfl, List.dropWhile_cons]
    simp only [show isSecSep secondSign = true from by decide, if_true]
    exact dropWhile_cons_false isSecSep dir tail hdss
  have hval : (((s10 / 10 : ℕ) : ℚ) + ((s10 % 10 : ℕ) : ℚ) / 10) = (s10 : ℚ) / 10 := by
    rw [eq_div_iff (by norm_num : (10 : ℚ) ≠ 0)]
    push_cast
    rw [add_mul, div_mul_cancel₀ _ (by norm_num : (10 : ℚ) ≠ 0)]
    exact_mod_cast (by omega : s10 / 10 * 10 + s10 % 10 = s10)
  rw [← hval]
  exact scanHalf_eval true _ _ _ _ m (pad2 m).length _ _ _ _ dir tail h1 h2 h3 h4 h5 h6 hdir

theorem scanDecNum_stop (ds : Str) (e : Char) (rest : Str) (hne : ds ≠ [])
    (hd : ∀ c ∈ ds, c.isDigit = true) (he : e.isDigit = false) (hdot : ¬(e = '.')) :
    scanDecNum (ds ++ e :: rest) = some (((digitsAcc 0 ds : ℕ) : ℚ), e :: rest) := by
  unfold scanDecNum
  rw [scanDigits_append ds (e :: rest) hne hd (Or.inr ⟨e, rest, rfl, he⟩)]
  show (if e = '.' then
      some (((digitsAcc 0 ds : ℕ) : ℚ) +
        ((scanDigitsGo rest 0 0).1 : ℚ) / (10 : ℚ) ^ (scanDigitsGo rest 0 0).2.1,
        (scanDigitsGo rest 0 0).2.2)
    else some (((digitsAcc 0 ds : ℕ) : ℚ), e :: rest)) =
    some (((digitsAcc 0 ds : ℕ) : ℚ), e :: rest)
  rw [if_neg hdot]

theorem scanSignedDecNum_of_digit (c : Char) (cs : Str) (hc : c.isDigit = true) :
    scanSignedDecNum (c :: cs) = scanDecNum (c :: cs) := by
  unfold scanSignedDecNum
  split
  · rename_i rest heq
    exfalso
    have hcm : c = '-' := (List.cons.injEq _ _ _ _ ▸ heq).1
    rw [hcm] at hc
    exact absurd hc (by decide)
  · rfl

/-- The anchored decimal pattern rejects a rendered DMS string: the
degree sign after the leading digits is neither `,` nor `;`. -/
theorem decScan_render_none (d : ℕ) (rest : Str) :
    decScan (natDigits d ++ degSign :: rest) = none := by
  obtain ⟨hd, hne, hval⟩ := natDigits_spec d
  obtain ⟨c, cs, hcons⟩ : ∃ c cs, natDigits d = c :: cs := by
    cases h : natDigits d with
    | nil => exact absurd h hne
    | cons c cs => exact ⟨c, cs, rfl⟩
  have hc : c.isDigit = true := hd c (hcons ▸ List.mem_cons_self _ _)
  have hsigned : scanSignedDecNum (natDigits d ++ degSign :: rest) =
      some (((digitsAcc 0 (natDigits d) : ℕ) : ℚ), degSign :: rest) := by
    rw [hcons, List.cons_append, scanSignedDecNum_of_digit c _ hc, ← List.cons_append,
      ← hcons]
    exact scanDecNum_stop (natDigits d) degSign rest hne hd (by decide) (by decide)
  unfold decScan
  rw [hsigned]
  show (match (degSign :: rest).dropWhile isJsWs with
    | c :: r2 =>
      if c = ',' ∨ c = ';' then
        match scanSignedDecNum (r2.dropWhile isJsWs) with
        | some (b, []) => some (((digitsAcc 0 (natDigits d) : ℕ) : ℚ), b)
        | _ => none
      else none
    | [] => none) = none
  rw [dropWhile_cons_false isJsWs degSign rest (by decide)]
  show (if degSign = ',' ∨ degSign = ';' then
      match scanSignedDecNum (rest.dropWhile isJsWs) with
      | some (b, []) => some (((digitsAcc 0 (natDigits d) : ℕ) : ℚ), b)
      | _ => none
    else none) = none
  rw [if_neg (by decide)]

theorem dmsScanAt_eval (q : Bool) (l r1 r2 rest : Str) (latDeg : ℤ) (latMin : ℕ)
    (latSec : ℚ) (latDir : Char) (lngDeg : ℤ) (lngMin : ℕ) (lngSec : ℚ) (lngDir : Char)
    (h1 : scanHalf q l = some (latDeg, latMin, latSec, latDir, r1))
    (h2 : scanRun1 isJsWs r1 = some r2)
    (h3 : scanHalf q r2 = some (lngDeg, lngMin, lngSec, lngDir, rest)) :
    dmsScanAt q l = some ⟨latDeg, latMin, latSec, latDir, lngDeg, lngMin, lngSec, lngDir⟩ := by
  unfold dmsScanAt
  rw [h1]
  show (match scanRun1 isJsWs r1 with
    | none => none
    | some r2 =>
      match scanHalf q r2 with
      | none => none
      | some (lngDeg2, lngMin2, lngSec2, lngDir2, _) =>
        some (DMSRaw.mk latDeg latMin latSec latDir lngDeg2 lngMin2 lngSec2 lngDir2)) =
    some (DMSRaw.mk latDeg latMin latSec latDir lngDeg lngMin lngSec lngDir)
  rw [h2]
  show (match scanHalf q r2 with
    | none => none
    | some (lngDeg2, lngMin2, lngSec2, lngDir2, _) =>
      some (DMSRaw.mk latDeg latMin latSec latDir lngDeg2 lngMin2 lngSec2 lngDir2)) =
    some (DMSRaw.mk latDeg latMin latSec latDir lngDeg lngMin lngSec lngDir)
  rw [h3]

theorem dmsSearch_cons_some (q : Bool) (c : Char) (t : Str) (g : DMSRaw)
    (h : dmsScanAt q (c :: t) = some g) : dmsSearch q (c :: t) = some g := by
  unfold dmsSearch
  rw [h]

theorem trimStr_eq_self (s : Str) (c : Char) (t : Str) (e : Char) (p : Str)
    (h1 : s = c :: t) (hc : isJsWs c = false)
    (h2 : s = p ++ [e]) (he : isJsWs e = false) :
    trimStr s = s := by
  unfold trimStr
  rw [h1, dropWhile_cons_false _ _ _ hc, ← h1, h2]
  have hrev : (p ++ [e]).reverse = e :: p.reverse := by simp
  rw [hrev, dropWhile_cons_false _ _ _ he]
  simp

/-- `parseCoordinates` with its local `let`s expanded. -/
theorem parseCoordinates_eq (input : Str) :
    parseCoordinates input =
      if trimStr input = [] then none
      else
        match (match decScan (trimStr input) with
          | some (lat, lng) =>
            if -90 ≤ lat ∧ lat ≤ 90 ∧ -180 ≤ lng ∧ lng ≤ 180 then some (lat, lng)
            else none
          | none => none) with
        | some r => some r
        | none =>
          match (dmsSearch true (trimStr input)).bind dmsToCoords with
          | some r => some r
          | none => (dmsSearch false (trimStr input)).bind dmsToCoords := rfl

/-- A rendered DMS input that survives trimming, fails the decimal
branch and matches the quoted DMS pattern parses to that match's
decimal value. -/
theorem parseCoordinates_dms (input : Str) (g : DMSRaw) (r : ℚ × ℚ)
    (htrim : trimStr input = input) (hne : ¬(input = []))
    (hdec : decScan input = none)
    (hsearch : dmsSearch true input = some g)
    (hcoords : dmsToCoords g = some r) :
    parseCoordinates input = some r := by
  rw [parseCoordinates_eq, htrim, hdec, if_neg hne]
  show (match (dmsSearch true input).bind dmsToCoords with
    | some r => some r
    | none => (dmsSearch false input).bind dmsToCoords) = some r
  rw [hsearch]
  show (match dmsToCoords g with
    | some r => some r
    | none => (dmsSearch false input).bind dmsToCoords) = some r
  rw [hcoords]

theorem dmsToCoords_eval (g : DMSRaw) (la lo : ℚ)
    (hla : (if g.latDir.toUpper = 'S'
        then -((g.latDeg : ℚ) + (g.latMin : ℚ) / 60 + g.latSec / 3600)
        else (g.latDeg : ℚ) + (g.latMin : ℚ) / 60 + g.latSec / 3600) = la)
    (hlo : (if g.lngDir.toUpper = 'W'
        then -((g.lngDeg : ℚ) + (g.lngMin : ℚ) / 60 + g.lngSec / 3600)
        else (g.lngDeg : ℚ) + (g.lngMin : ℚ) / 60 + g.lngSec / 3600) = lo)
    (hr : -90 ≤ la ∧ la ≤ 90 ∧ -180 ≤ lo ∧ lo ≤ 180) :
    dmsToCoords g = some (la, lo) := by
  unfold dmsToCoords
  show (if -90 ≤ (if g.latDir.toUpper = 'S'
          then -((g.latDeg : ℚ) + (g.latMin : ℚ) / 60 + g.latSec / 3600)
          else (g.latDeg : ℚ) + (g.latMin : ℚ) / 60 + g.latSec / 3600) ∧
        (if g.latDir.toUpper = 'S'
          then -((g.latDeg : ℚ) + (g.latMin : ℚ) / 60 + g.latSec / 3600)
          else (g.latDeg : ℚ) + (g.latMin : ℚ) / 60 + g.latSec / 3600) ≤ 90 ∧
        -180 ≤ (if g.lngDir.toUpper = 'W'
          then -((g.lngDeg : ℚ) + (g.lngMin : ℚ) / 60 + g.lngSec / 3600)
          else (g.lngDeg : ℚ) + (g.lngMin : ℚ) / 60 + g.lngSec / 3600) ∧
        (if g.lngDir.toUpper = 'W'
          then -((g.lngDeg : ℚ) + (g.lngMin : ℚ) / 60 + g.lngSec / 3600)
          else (g.lngDeg : ℚ) + (g.lngMin : ℚ) / 60 + g.lngSec / 3600) ≤ 180
      then some
        ((if g.latDir.toUpper = 'S'
          then -((g.latDeg : ℚ) + (g.latMin : ℚ) / 60 + g.latSec / 3600)
          else (g.latDeg : ℚ) + (g.latMin : ℚ) / 60 + g.latSec / 3600),
        (if g.lngDir.toUpper = 'W'
          then -((g.lngDeg : ℚ) + (g.lngMin : ℚ) / 60 + g.lngSec / 3600)
          else (g.lngDeg : ℚ) + (g.lngMin : ℚ) / 60 + g.lngSec / 3600))
      else none) = some (la, lo)
  rw [hla, hlo, if_pos hr]

theorem signed_err (a P v : ℚ) (h : |P - abs a| ≤ 1 / 72000)
    (hv : v = if 0 ≤ a then P else -P) : |v - a| ≤ 1 / 36000 := by
  rcases abs_le.mp h with ⟨hl, hr⟩
  by_cases hs : 0 ≤ a
  · rw [hv, if_pos hs]
    rw [abs_of_nonneg hs] at hl hr
    exact abs_le.mpr ⟨by linarith, by linarith⟩
  · rw [hv, if_neg hs]
    push_neg at hs
    rw [abs_of_neg hs] at hl hr
    exact abs_le.mpr ⟨by linarith, by linarith⟩

/-- The formatted output of `decimalToDMS` for `|a| ≤ bound`, with
its degree, minute and tenth-of-second fields: the rendered string, the
reconstruction error (at most half a tenth of a second of arc) and the
range of the reconstructed magnitude. -/
theorem half_facts (a : ℚ) (bound : ℕ) (isLat : Bool) (dir : Char)
    (hdir : (if isLat then (if 0 ≤ a then 'N' else 'S')
        else (if 0 ≤ a then 'E' else 'W')) = dir)
    (h1 : -(bound : ℚ) ≤ a) (h2 : a ≤ (bound : ℚ)) :
    ∃ d m s10 : ℕ,
      decimalToDMS a isLat = natDigits d ++ degSign :: (pad2 m ++ minuteSign ::
        (natDigits (s10 / 10) ++ '.' :: digitChar (s10 % 10) :: secondSign :: [dir])) ∧
      |((d : ℚ) + (m : ℚ) / 60 + (s10 : ℚ) / 10 / 3600) - abs a| ≤ 1 / 72000 ∧
      0 ≤ (d : ℚ) + (m : ℚ) / 60 + (s10 : ℚ) / 10 / 3600 ∧
      (d : ℚ) + (m : ℚ) / 60 + (s10 : ℚ) / 10 / 3600 ≤ (bound : ℚ) := by
  have hshape : decimalToDMS a isLat =
      natDigits (Int.floor |a|).toNat ++ degSign ::
        (pad2 (Int.floor ((|a| - ((Int.floor |a|).toNat : ℚ)) * 60)).toNat ++ minuteSign ::
          (natDigits ((Int.floor ((((|a| - ((Int.floor |a|).toNat : ℚ)) * 60) -
              ((Int.floor ((|a| - ((Int.floor |a|).toNat : ℚ)) * 60)).toNat : ℚ)) * 60 * 10 +
              1 / 2)).toNat / 10) ++ '.' ::
            digitChar ((Int.floor ((((|a| - ((Int.floor |a|).toNat : ℚ)) * 60) -
              ((Int.floor ((|a| - ((Int.floor |a|).toNat : ℚ)) * 60)).toNat : ℚ)) * 60 * 10 +
              1 / 2)).toNat % 10) ::
            secondSign :: [dir])) := by
    rw [← hdir]
    unfold decimalToDMS toFixed1
    simp [List.append_assoc]
  set A := |a| with hA
  set d : ℕ := (Int.floor A).toNat with hd
  set mf : ℚ := (A - (d : ℚ)) * 60 with hmf
  set m : ℕ := (Int.floor mf).toNat with hm
  set sec : ℚ := (mf - (m : ℚ)) * 60 with hsec
  set s10 : ℕ := (Int.floor (sec * 10 + 1 / 2)).toNat with hs10
  have F1 : (0 : ℚ) ≤ A := abs_nonneg a
  have F2 : A ≤ (bound : ℚ) := abs_le.mpr ⟨h1, h2⟩
  have hfl0 : 0 ≤ Int.floor A := Int.floor_nonneg.mpr F1
  have hdQ : (d : ℚ) = ((Int.floor A : ℤ) : ℚ) := by
    rw [hd]
    exact_mod_cast congrArg (fun z : ℤ => (z : ℚ)) (Int.toNat_of_nonneg hfl0)
  have F3 : (d : ℚ) ≤ A := by rw [hdQ]; exact Int.floor_le A
  have F4 : A < (d : ℚ) + 1 := by rw [hdQ]; exact Int.lt_floor_add_one A
  have F5 : (0 : ℚ) ≤ mf := by rw [hmf]; nlinarith
  have F6 : mf < 60 := by rw [hmf]; nlinarith
  have hmfl0 : 0 ≤ Int.floor mf := Int.floor_nonneg.mpr F5
  have hmQ : (m : ℚ) = ((Int.floor mf : ℤ) : ℚ) := by
    rw [hm]
    exact_mod_cast congrArg (fun z : ℤ => (z : ℚ)) (Int.toNat_of_nonneg hmfl0)
  have F7 : (m : ℚ) ≤ mf := by rw [hmQ]; exact Int.floor_le mf
  have F8 : mf < (m : ℚ) + 1 := by rw [hmQ]; exact Int.lt_floor_add_one mf
  have hm60 : Int.floor mf < 60 := Int.floor_lt.mpr (by exact_mod_cast F6)
  have hm59 : m ≤ 59 := by omega
  have F9 : (0 : ℚ) ≤ sec := by rw [hsec]; nlinarith
  have F10 : sec < 60 := by rw [hsec]; nlinarith
  have hsfl0 : 0 ≤ Int.floor (sec * 10 + 1 / 2) := Int.floor_nonneg.mpr (by linarith)
  have hsQ : (s10 : ℚ) = ((Int.floor (sec * 10 + 1 / 2) : ℤ) : ℚ) := by
    rw [hs10]
    exact_mod_cast congrArg (fun z : ℤ => (z : ℚ)) (Int.toNat_of_nonneg hsfl0)
  have F11 : (s10 : ℚ) ≤ sec * 10 + 1 / 2 := by
    rw [hsQ]; exact Int.floor_le _
  have F12 : sec * 10 + 1 / 2 < (s10 : ℚ) + 1 := by
    rw [hsQ]; exact Int.lt_floor_add_one _
  have hs601 : Int.floor (sec * 10 + 1 / 2) < 601 := Int.floor_lt.mpr (by push_cast; linarith)
  have hs600 : s10 ≤ 600 := by omega
  have hs600Q : (s10 : ℚ) ≤ 600 := by exact_mod_cast hs600
  have hid : (d : ℚ) + (m : ℚ) / 60 + sec / 3600 = A := by
    rw [hsec, hmf]
    ring
  have herr : |((d : ℚ) + (m : ℚ) / 60 + (s10 : ℚ) / 10 / 3600) - A| ≤ 1 / 72000 := by
    have hdiff : ((d : ℚ) + (m : ℚ) / 60 + (s10 : ℚ) / 10 / 3600) - A =
        ((s10 : ℚ) / 10 - sec) / 3600 := by
      rw [← hid]
      ring
    rw [hdiff, abs_div, abs_of_pos (by norm_num : (0 : ℚ) < 3600),
      div_le_iff (by norm_num : (0 : ℚ) < 3600)]
    rw [abs_le]
    constructor <;> [linarith; linarith]
  refine ⟨d, m, s10, hshape, herr, by positivity, ?_⟩
  by_cases hdb : d < bound
  · have hdbQ : (d : ℚ) ≤ (bound : ℚ) - 1 := by
      have : d + 1 ≤ bound := hdb
      have := (Nat.cast_le (α := ℚ)).mpr this
      push_cast at this
      linarith
    have hm59Q : (m : ℚ) ≤ 59 := by exact_mod_cast hm59
    linarith
  · push_neg at hdb
    have hdbQ : (bound : ℚ) ≤ (d : ℚ) := by exact_mod_cast hdb
    have hdb2 : (d : ℚ) = (bound : ℚ) := le_antisymm (le_trans F3 F2) hdbQ
    have hAb : A = (bound : ℚ) := le_antisymm F2 (le_trans hdbQ F3)
    have hm0 : (0 : ℚ) ≤ (m : ℚ) := Nat.cast_nonneg m
    have hsum : (m : ℚ) / 60 + sec / 3600 = 0 := by linarith [hid]
    have hmz : (m : ℚ) = 0 := by linarith [F9]
    have hsecz : sec = 0 := by linarith [F9]
    have hs10z : (s10 : ℚ) = 0 := by
      have hfz : Int.floor (sec * 10 + 1 / 2) = 0 := by
        rw [hsecz, show (0 : ℚ) * 10 + 1 / 2 = 1 / 2 from by norm_num,
          Int.floor_eq_zero_iff]
        exact Set.mem_Ico.mpr ⟨by norm_num, by norm_num⟩
      rw [hsQ, hfz]
      norm_num
    rw [hdb2, hmz, hs10z]
    norm_num

theorem natDigits_cons (n : ℕ) : ∃ c cs, natDigits n = c :: cs ∧ c.isDigit = true := by
  obtain ⟨hd, hne, _⟩ := natDigits_spec n
  cases h : natDigits n with
  | nil => exact absurd h hne
  | cons c cs => exact ⟨c, cs, rfl, hd c (h ▸ List.mem_cons_self _ _)⟩

/-- C3: for all `lat ∈ [-90, 90]` and `lng ∈ [-180, 180]`, parsing the
formatted DMS string round-trips: `parseCoordinates (latLngToDMS lat lng)`
succeeds and returns a pair within `1/36000` of a degree (0.1 arc-second,
the formatting precision) of the original values. -/
theorem c3_dms_round_trip (lat lng : ℚ)
    (h1 : -90 ≤ lat) (h2 : lat ≤ 90) (h3 : -180 ≤ lng) (h4 : lng ≤ 180) :
    ∃ lat2 lng2 : ℚ, parseCoordinates (latLngToDMS lat lng) = some (lat2, lng2) ∧
      |lat2 - lat| ≤ 1 / 36000 ∧ |lng2 - lng| ≤ 1 / 36000 := by
  obtain ⟨d1, m1, s1, hsh1, herr1, hpos1, hble1⟩ :=
    half_facts lat 90 true (if 0 ≤ lat then 'N' else 'S') (if_pos rfl)
      (by push_cast; linarith) (by push_cast; linarith)
  obtain ⟨d2, m2, s2, hsh2, herr2, hpos2, hble2⟩ :=
    half_facts lng 180 false (if 0 ≤ lng then 'E' else 'W')
      (if_neg (by exact fun h => Bool.noConfusion h))
      (by push_cast; linarith) (by push_cast; linarith)
  push_cast at hble1 hble2
  set dirLat : Char := if 0 ≤ lat then 'N' else 'S' with hdl
  set dirLng : Char := if 0 ≤ lng then 'E' else 'W' with hdg
  have hdc1 : isDirChar dirLat = true := by rw [hdl]; split_ifs <;> decide
  have hss1 : isSecSep dirLat = false := by rw [hdl]; split_ifs <;> decide
  have hdc2 : isDirChar dirLng = true := by rw [hdg]; split_ifs <;> decide
  have hss2 : isSecSep dirLng = false := by rw [hdg]; split_ifs <;> decide
  have hws2 : isJsWs dirLng = false := by rw [hdg]; split_ifs <;> decide
  have hS : latLngToDMS lat lng =
      natDigits d1 ++ degSign :: (pad2 m1 ++ minuteSign ::
        (natDigits (s1 / 10) ++ '.' :: digitChar (s1 % 10) :: secondSign :: dirLat ::
          ' ' :: (natDigits d2 ++ degSign :: (pad2 m2 ++ minuteSign ::
            (natDigits (s2 / 10) ++ '.' :: digitChar (s2 % 10) ::
              secondSign :: [dirLng]))))) := by
    unfold latLngToDMS
    rw [hsh1, hsh2]
    simp [List.append_assoc]
  have hscan1 : scanHalf true (natDigits d1 ++ degSign :: (pad2 m1 ++ minuteSign ::
      (natDigits (s1 / 10) ++ '.' :: digitChar (s1 % 10) :: secondSign :: dirLat ::
        ' ' :: (natDigits d2 ++ degSign :: (pad2 m2 ++ minuteSign ::
          (natDigits (s2 / 10) ++ '.' :: digitChar (s2 % 10) ::
            secondSign :: [dirLng])))))) =
      some ((d1 : ℤ), m1, (s1 : ℚ) / 10, dirLat,
        ' ' :: (natDigits d2 ++ degSign :: (pad2 m2 ++ minuteSign ::
          (natDigits (s2 / 10) ++ '.' :: digitChar (s2 % 10) ::
            secondSign :: [dirLng])))) :=
    scanHalf_render d1 m1 s1 dirLat _ hdc1 hss1
  obtain ⟨hd2d, hd2ne, _⟩ := natDigits_spec d2
  have hrun : scanRun1 isJsWs (' ' :: (natDigits d2 ++ degSign :: (pad2 m2 ++ minuteSign ::
      (natDigits (s2 / 10) ++ '.' :: digitChar (s2 % 10) :: secondSign :: [dirLng])))) =
      some (natDigits d2 ++ degSign :: (pad2 m2 ++ minuteSign ::
        (natDigits (s2 / 10) ++ '.' :: digitChar (s2 % 10) :: secondSign :: [dirLng]))) := by
    rw [scanRun1_cons isJsWs ' ' _ (by decide)]
    rw [dropWhile_digits isJsWs (natDigits d2) _ hd2ne hd2d digit_not_jsws]
  have hscan2 : scanHalf true (natDigits d2 ++ degSign :: (pad2 m2 ++ minuteSign ::
      (natDigits (s2 / 10) ++ '.' :: digitChar (s2 % 10) :: secondSign :: [dirLng]))) =
      some ((d2 : ℤ), m2, (s2 : ℚ) / 10, dirLng, []) :=
    scanHalf_render d2 m2 s2 dirLng [] hdc2 hss2
  have hraw : dmsScanAt true (natDigits d1 ++ degSign :: (pad2 m1 ++ minuteSign ::
      (natDigits (s1 / 10) ++ '.' :: digitChar (s1 % 10) :: secondSign :: dirLat ::
        ' ' :: (natDigits d2 ++ degSign :: (pad2 m2 ++ minuteSign ::
          (natDigits (s2 / 10) ++ '.' :: digitChar (s2 % 10) ::
            secondSign :: [dirLng])))))) =
      some ⟨(d1 : ℤ), m1, (s1 : ℚ) / 10, dirLat, (d2 : ℤ), m2, (s2 : ℚ) / 10, dirLng⟩ :=
    dmsScanAt_eval true _ _ _ _ _ _ _ _ _ _ _ _ hscan1 hrun hscan2
  obtain ⟨c1, cs1, hc1, hc1d⟩ := natDigits_cons d1
  have hsearch : dmsSearch true (natDigits d1 ++ degSign :: (pad2 m1 ++ minuteSign ::
      (natDigits (s1 / 10) ++ '.' :: digitChar (s1 % 10) :: secondSign :: dirLat ::
        ' ' :: (natDigits d2 ++ degSign :: (pad2 m2 ++ minuteSign ::
          (natDigits (s2 / 10) ++ '.' :: digitChar (s2 % 10) ::
            secondSign :: [dirLng])))))) =
      some ⟨(d1 : ℤ), m1, (s1 : ℚ) / 10, dirLat, (d2 : ℤ), m2, (s2 : ℚ) / 10, dirLng⟩ := by
    rw [hc1, List.cons_append] at hraw ⊢
    exact dmsSearch_cons_some true c1 _ _ hraw
  have htrim : trimStr (natDigits d1 ++ degSign :: (pad2 m1 ++ minuteSign ::
      (natDigits (s1 / 10) ++ '.' :: digitChar (s1 % 10) :: secondSign :: dirLat ::
        ' ' :: (natDigits d2 ++ degSign :: (pad2 m2 ++ minuteSign ::
          (natDigits (s2 / 10) ++ '.' :: digitChar (s2 % 10) ::
            secondSign :: [dirLng])))))) =
      natDigits d1 ++ degSign :: (pad2 m1 ++ minuteSign ::
        (natDigits (s1 / 10) ++ '.' :: digitChar (s1 % 10) :: secondSign :: dirLat ::
          ' ' :: (natDigits d2 ++ degSign :: (pad2 m2 ++ minuteSign ::
            (natDigits (s2 / 10) ++ '.' :: digitChar (s2 % 10) ::
              secondSign :: [dirLng]))))) := by
    refine trimStr_eq_self _ c1
      (cs1 ++ degSign :: (pad2 m1 ++ minuteSign ::
        (natDigits (s1 / 10) ++ '.' :: digitChar (s1 % 10) :: secondSign :: dirLat ::
          ' ' :: (natDigits d2 ++ degSign :: (pad2 m2 ++ minuteSign ::
            (natDigits (s2 / 10) ++ '.' :: digitChar (s2 % 10) ::
              secondSign :: [dirLng]))))))
      dirLng
      (natDigits d1 ++ degSign :: (pad2 m1 ++ minuteSign ::
        (natDigits (s1 / 10) ++ '.' :: digitChar (s1 % 10) :: secondSign :: dirLat ::
          ' ' :: (natDigits d2 ++ degSign :: (pad2 m2 ++ minuteSign ::
            (natDigits (s2 / 10) ++ '.' :: digitChar (s2 % 10) :: [secondSign]))))))
      ?_ (digit_not_jsws c1 hc1d) ?_ hws2
    · rw [hc1, List.cons_append]
    · simp [List.append_assoc]
  have hdscan : decScan (natDigits d1 ++ degSign :: (pad2 m1 ++ minuteSign ::
      (natDigits (s1 / 10) ++ '.' :: digitChar (s1 % 10) :: secondSign :: dirLat ::
        ' ' :: (natDigits d2 ++ degSign :: (pad2 m2 ++ minuteSign ::
          (natDigits (s2 / 10) ++ '.' :: digitChar (s2 % 10) ::
            secondSign :: [dirLng])))))) = none :=
    decScan_render_none d1 _
  have hne : ¬((natDigits d1 ++ degSign :: (pad2 m1 ++ minuteSign ::
      (natDigits (s1 / 10) ++ '.' :: digitChar (s1 % 10) :: secondSign :: dirLat ::
        ' ' :: (natDigits d2 ++ degSign :: (pad2 m2 ++ minuteSign ::
          (natDigits (s2 / 10) ++ '.' :: digitChar (s2 % 10) ::
            secondSign :: [dirLng])))))) = ([] : Str)) := by
    simp [hc1]
  have hla : (if dirLat.toUpper = 'S'
      then -(((d1 : ℤ) : ℚ) + (m1 : ℚ) / 60 + (s1 : ℚ) / 10 / 3600)
      else ((d1 : ℤ) : ℚ) + (m1 : ℚ) / 60 + (s1 : ℚ) / 10 / 3600) =
      (if 0 ≤ lat then ((d1 : ℚ) + (m1 : ℚ) / 60 + (s1 : ℚ) / 10 / 3600)
        else -((d1 : ℚ) + (m1 : ℚ) / 60 + (s1 : ℚ) / 10 / 3600)) := by
    rw [show (((d1 : ℤ) : ℚ)) = (d1 : ℚ) from by push_cast; ring, hdl]
    by_cases hs : 0 ≤ lat
    · rw [if_pos hs, if_pos hs, if_neg (by decide)]
    · rw [if_neg hs, if_neg hs, if_pos (by decide)]
  have hlo : (if dirLng.toUpper = 'W'
      then -(((d2 : ℤ) : ℚ) + (m2 : ℚ) / 60 + (s2 : ℚ) / 10 / 3600)
      else ((d2 : ℤ) : ℚ) + (m2 : ℚ) / 60 + (s2 : ℚ) / 10 / 3600) =
      (if 0 ≤ lng then ((d2 : ℚ) + (m2 : ℚ) / 60 + (s2 : ℚ) / 10 / 3600)
        else -((d2 : ℚ) + (m2 : ℚ) / 60 + (s2 : ℚ) / 10 / 3600)) := by
    rw [show (((d2 : ℤ) : ℚ)) = (d2 : ℚ) from by push_cast; ring, hdg]
    by_cases hs : 0 ≤ lng
    · rw [if_pos hs, if_pos hs, if_neg (by decide)]
    · rw [if_neg hs, if_neg hs, if_pos (by decide)]
  have hcoords : dmsToCoords
      ⟨(d1 : ℤ), m1, (s1 : ℚ) / 10, dirLat, (d2 : ℤ), m2, (s2 : ℚ) / 10, dirLng⟩ =
      some ((if 0 ≤ lat then ((d1 : ℚ) + (m1 : ℚ) / 60 + (s1 : ℚ) / 10 / 3600)
          else -((d1 : ℚ) + (m1 : ℚ) / 60 + (s1 : ℚ) / 10 / 3600)),
        (if 0 ≤ lng then ((d2 : ℚ) + (m2 : ℚ) / 60 + (s2 : ℚ) / 10 / 3600)
          else -((d2 : ℚ) + (m2 : ℚ) / 60 + (s2 : ℚ) / 10 / 3600))) := by
    refine dmsToCoords_eval _ _ _ hla hlo ⟨?_, ?_, ?_, ?_⟩
    · split_ifs <;> linarith
    · split_ifs <;> linarith
    · split_ifs <;> linarith
    · split_ifs <;> linarith
  refine ⟨(if 0 ≤ lat then ((d1 : ℚ) + (m1 : ℚ) / 60 + (s1 : ℚ) / 10 / 3600)
      else -((d1 : ℚ) + (m1 : ℚ) / 60 + (s1 : ℚ) / 10 / 3600)),
    (if 0 ≤ lng then ((d2 : ℚ) + (m2 : ℚ) / 60 + (s2 : ℚ) / 10 / 3600)
      else -((d2 : ℚ) + (m2 : ℚ) / 60 + (s2 : ℚ) / 10 / 3600)), ?_, ?_, ?_⟩
  · rw [hS]
    exact parseCoordinates_dms _ _ _ htrim hne hdscan hsearch hcoords
  · exact signed_err lat _ _ herr1 rfl
  · exact signed_err lng _ _ herr2 rfl

theorem c3_dms_round_trip_witness :
    (-90 ≤ (0 : ℚ)) ∧ ((0 : ℚ) ≤ 90) ∧ (-180 ≤ (0 : ℚ)) ∧ ((0 : ℚ) ≤ 180) ∧
    (∃ lat2 lng2 : ℚ, parseCoordinates (latLngToDMS 0 0) = some (lat2, lng2) ∧
      |lat2 - 0| ≤ 1 / 36000 ∧ |lng2 - 0| ≤ 1 / 36000) :=
  ⟨by norm_num, by norm_num, by norm_num, by norm_num,
    c3_dms_round_trip 0 0 (by norm_num) (by norm_num) (by norm_num) (by norm_num)⟩

end RG
